import Mathlib

/-!
Verification of the `literate` report generator (src/literate.py).

The development shallowly embeds the token-level segmenter, the docstring
classifier, the output-capture cage and the execution driver of the
repository.  Text is modelled as `List Char`; tokens follow the host
tokenizer's token tuples (type, string, start, end, line).  External host
primitives (the tokenizer itself, `tokenize.untokenize`, `eval` on string
literals, and the dynamic `exec` namespace semantics) are modelled
explicitly; each such model carries a doc comment naming what it stands for.
-/

set_option autoImplicit false

namespace Literate

/-- Characters of a piece of text (Python `str`). -/
abbrev Chars := List Char

/-- The single-quote character, kept out of string literals. -/
def sq : Char := Char.ofNat 39

/-- Token kinds of the host `tokenize` module that the program inspects. -/
inductive TokType where
  | NAME
  | OP
  | NUMBER
  | STRING
  | INDENT
  | DEDENT
  | COMMENT
  | NEWLINE
  | NL
  | ENCODING
  | ENDMARKER
  deriving DecidableEq

/-- A token tuple of the host tokenizer: kind, source text, start and end
positions (row, column; rows are 1-based), and the physical line holding the
token. -/
structure Tok where
  type : TokType
  string : Chars
  startPos : Nat × Nat
  endPos : Nat × Nat
  line : Chars
  deriving DecidableEq

/-- Whitespace characters stripped by Python `str.strip()`. -/
def isPySpace (c : Char) : Bool :=
  c = ' ' ∨ c = '\t' ∨ c = '\n' ∨ c = '\r' ∨ c = Char.ofNat 11 ∨ c = Char.ofNat 12

/-- Python `str.strip()` (default whitespace set). -/
def pyStrip (l : Chars) : Chars :=
  ((l.dropWhile isPySpace).reverse.dropWhile isPySpace).reverse

/-- Whether `line.strip()` is non-empty (truthy), i.e. the line has a
non-whitespace character. -/
def hasContent (l : Chars) : Bool :=
  l.any (fun c => ¬ isPySpace c)

/-- `_IGNORABLE_TOKENS` of literate.py (line 223): token kinds that are
structurally insignificant when classifying a line's content. -/
def _IGNORABLE_TOKENS : List TokType :=
  [.INDENT, .DEDENT, .COMMENT, .NEWLINE, .NL, .ENCODING, .ENDMARKER]

/-- `_evaluate_indent_variation` (line 216): net indentation change of a
token run, `+1` per INDENT and `-1` per DEDENT. -/
def _evaluate_indent_variation (token_seq : List Tok) : Int :=
  ((token_seq.countP (fun t => t.type = .INDENT)) : Int) -
    ((token_seq.countP (fun t => t.type = .DEDENT)) : Int)

/-- `_is_continued_block` (line 234): the first significant token is one of
the continuation keywords elif/else/except/finally. -/
def _is_continued_block : List Tok → Bool
  | [] => false
  | t :: ts =>
    if t.type ∈ _IGNORABLE_TOKENS then _is_continued_block ts
    else if t.type = .NAME then
      decide (t.string = ("elif").data ∨ t.string = ("else").data ∨
        t.string = ("except").data ∨ t.string = ("finally").data)
    else false

/-- Models the host `eval` applied to the source text of a string-literal
token (`eval(token.string)` at literate.py line 268): decode the common
backslash escapes. -/
def unescapePy : Chars → Chars
  | [] => []
  | '\\' :: c :: rest =>
    if c = 'n' then '\n' :: unescapePy rest
    else if c = 't' then '\t' :: unescapePy rest
    else if c = '\\' then '\\' :: unescapePy rest
    else if c = '"' then '"' :: unescapePy rest
    else if c = sq then sq :: unescapePy rest
    else '\\' :: c :: unescapePy rest
  | c :: rest => c :: unescapePy rest

/-- Models the host `eval` on a string-literal token's text: strip the quote
delimiters (triple or single, either quote character) and decode escapes.
Literal forms outside this model (prefixes, malformed quoting) evaluate
to the empty text. -/
def evalPyStr (s : Chars) : Chars :=
  let dq : Char := '"'
  if s.take 3 = [dq, dq, dq] ∨ s.take 3 = [sq, sq, sq] then
    unescapePy ((s.drop 3).take (s.length - 6))
  else if s.take 1 = [dq] ∨ s.take 1 = [sq] then
    unescapePy ((s.drop 1).take (s.length - 2))
  else []

/-- The loop body of `_is_docstring` (line 255): scan the tokens; `none`
models the `break` with `is_string = False`, otherwise the concatenated
evaluated string contents are accumulated. -/
def isDocGo : List Tok → Option Chars
  | [] => some []
  | t :: ts =>
    if t.type ∈ _IGNORABLE_TOKENS ++ [TokType.STRING] then
      if t.type = .STRING then (fun c => evalPyStr t.string ++ c) <$> isDocGo ts
      else isDocGo ts
    else none

/-- `_is_docstring` (line 255): the evaluated content when every token is
ignorable or a string literal, the empty text otherwise (also when the
content itself is empty). -/
def _is_docstring (token_line : List Tok) : Chars :=
  (isDocGo token_line).getD []

/-- The reversed scan of `_is_block_start` (line 273). -/
def blockStartGo : List Tok → Bool
  | [] => false
  | t :: ts =>
    if t.type ∈ _IGNORABLE_TOKENS then blockStartGo ts
    else decide (t.type = .OP ∧ t.string = [':'])

/-- `_is_block_start` (line 273): the last significant token is the `:`
operator. -/
def _is_block_start (token_line : List Tok) : Bool :=
  blockStartGo token_line.reverse

/-- Splitter state: first line so far and the remaining lines. -/
def splitNlAux : Chars → Chars × List Chars
  | [] => ([], [])
  | c :: s =>
    let r := splitNlAux s
    if c = '\n' then ([], r.1 :: r.2) else (c :: r.1, r.2)

/-- Python `str.split` on the newline character (always at least one piece). -/
def splitNl (s : Chars) : List Chars :=
  (splitNlAux s).1 :: (splitNlAux s).2

/-- `"\n".join` over a list of lines. -/
def joinNl : List Chars → Chars
  | [] => []
  | [l] => l
  | l :: ls => l ++ '\n' :: joinNl ls

/-- Python `str.splitlines()` restricted to the newline separator: no empty
final piece for a trailing newline, and the empty string has no lines. -/
def pySplitlines : Chars → List Chars
  | [] => []
  | c :: s =>
    if c = '\n' then [] :: pySplitlines s
    else
      match pySplitlines s with
      | [] => [[c]]
      | l :: ls => (c :: l) :: ls

/-- `count_indent` inside `_equalize_docstring` (line 299): number of leading
space or tab characters. -/
def count_indent (l : Chars) : Nat :=
  (l.takeWhile (fun c => c = ' ' ∨ c = '\t')).length

/-- `_equalize_docstring` (line 286): remove from every line but the first
the minimum indentation measured over the non-blank continuation lines. -/
def _equalize_docstring (docstring : Chars) : Chars :=
  let lines := pySplitlines docstring
  if lines.length ≤ 1 then docstring
  else
    let first_line := lines.headD []
    let rest := lines.tail
    let indents := (rest.filter hasContent).map count_indent
    let min_indent := match indents with
      | [] => 0
      | i :: is => is.foldl Nat.min i
    let rest2 := rest.map (fun l => if hasContent l then l.drop min_indent else l)
    joinNl (first_line :: rest2)

/-- Maximal runs of tokens sharing the key value `k`; models
`itertools.groupby` (continuation of an open run `cur`, kept reversed). -/
def runsByAux (p : Tok → Bool) (k : Bool) (cur : List Tok) : List Tok → List (List Tok)
  | [] => [cur.reverse]
  | t :: ts =>
    if p t = k then runsByAux p k (t :: cur) ts
    else cur.reverse :: runsByAux p (p t) [t] ts

/-- Models `itertools.groupby(tokens, p)`: the list of maximal runs of
tokens with equal key. -/
def runsBy (p : Tok → Bool) : List Tok → List (List Tok)
  | [] => []
  | t :: ts => runsByAux p (p t) [t] ts

/-- Elements at even indices (`res[::2]`). -/
def evens {α : Type} : List α → List α
  | [] => []
  | [a] => [a]
  | a :: _ :: rest => a :: evens rest

/-- Elements at odd indices (`res[1::2]`). -/
def odds {α : Type} : List α → List α
  | [] => []
  | [_] => []
  | _ :: b :: rest => b :: odds rest

/-- `is_complete_line` inside `_generate_logical_lines` (line 327): a NEWLINE
token terminates a logical line. -/
def is_complete_line (t : Tok) : Bool :=
  t.type = .NEWLINE

/-- `_generate_logical_lines` (line 312): group the token stream by the
NEWLINE key, pair consecutive runs, and concatenate each pair into one
logical line; an unpaired trailing run is dropped by the zip. -/
def _generate_logical_lines (tokens : List Tok) : List (List Tok) :=
  let res := runsBy is_complete_line tokens
  (List.zip (evens res) (odds res)).map (fun p => p.1 ++ p.2)

/-- `Untokenizer.add_whitespace` of the host `tokenize` module (the version
the program runs against): backslash-newline padding for skipped rows and
space padding for skipped columns; `none` models the ValueError raised for
out-of-order positions. -/
def add_whitespace (prev : Nat × Nat) (start : Nat × Nat) : Option Chars :=
  if start.1 < prev.1 ∨ (start.1 = prev.1 ∧ start.2 < prev.2) then none
  else
    let rowOff := start.1 - prev.1
    let colBase := if rowOff = 0 then prev.2 else 0
    some ((List.replicate rowOff ['\\', '\n']).flatten ++
      List.replicate (start.2 - colBase) ' ')

/-- The cursor update of the untokenize loop past one emitted token: to the
token's end, one row further (column zero) after NEWLINE and NL. -/
def advanceTok (_st : Nat × Nat) (t : Tok) : Nat × Nat :=
  if t.type = .NEWLINE ∨ t.type = .NL then (t.endPos.1 + 1, 0) else t.endPos

/-- The loop of the host `tokenize.untokenize` in full (position) mode:
skip ENCODING, stop at ENDMARKER, otherwise emit padding and the token text
and advance past the token's end (one row further after NEWLINE and NL). -/
def untokLoop : Nat × Nat → List Tok → Option (Chars × (Nat × Nat))
  | st, [] => some ([], st)
  | st, t :: ts =>
    if t.type = .ENCODING then untokLoop st ts
    else if t.type = .ENDMARKER then some ([], st)
    else
      match add_whitespace st t.startPos with
      | none => none
      | some pad =>
        match untokLoop (advanceTok st t) ts with
        | none => none
        | some r => some (pad ++ t.string ++ r.1, r.2)

/-- Models `tokenize.untokenize` on position-carrying tokens. -/
def untokenize (tokens : List Tok) : Option Chars :=
  (untokLoop (1, 0) tokens).map (fun r => r.1)

/-- `CodeGroup.__str__` (line 394): untokenize the group's tokens, drop the
leading backslash padding lines, and join the lines back; `none` models the
IndexError on an empty line list (unreachable) and the untokenize failure. -/
def strOfTokens (tokens : List Tok) : Option Chars :=
  match untokenize tokens with
  | none => none
  | some s =>
    let ls := (splitNl s).dropWhile (fun l => l = ['\\'])
    match ls with
    | [] => none
    | l0 :: rest => some (joinNl (if l0 = ['\n'] then rest else l0 :: rest))

/-- `is_decorator` inside `iterate_groups_from_source` (line 521): the
physical line of the pending group's last token starts with `@` after
stripping; `false` on an empty pending group (the call is guarded by the
short-circuit `or` in the source). -/
def is_decorator (lg : List Tok) : Bool :=
  match lg.getLast? with
  | none => false
  | some t => (pyStrip t.line).take 1 = ['@']

/-- Running sums, models `itertools.accumulate`. -/
def accumulateInt : Int → List Int → List Int
  | _, [] => []
  | s, x :: r => (s + x) :: accumulateInt (s + x) r

/-- The loop of `iterate_groups_from_source` (line 524): walk the logical
lines with their accumulated indentation level, extending the pending group
(`acc`) or sealing it into an emitted group. -/
def iterGo : List (List Tok × Int) → List Tok → List (List Tok)
  | [], acc => if acc.isEmpty then [] else [acc]
  | (line, lvl) :: rest, acc =>
    if lvl = 0 then
      if acc.isEmpty || is_decorator acc then iterGo rest (acc ++ line)
      else if _is_continued_block line then iterGo rest (acc ++ line)
      else acc :: iterGo rest line
    else iterGo rest (acc ++ line)

/-- `CodeGroup.iterate_groups_from_source` (line 513): the emitted groups,
each given by its token list, in emission order.  A group's position index
(`get_index`, computed in the source by walking the `previous` chain that
links each group to the previously created one) is its position in this
list. -/
def iterate_groups_from_source (tokens : List Tok) : List (List Tok) :=
  let lines := _generate_logical_lines tokens
  let lvls := accumulateInt 0 (lines.map _evaluate_indent_variation)
  iterGo (List.zip lines lvls) []

/-- The concatenation (`"".join`) of the reconstructed texts of all groups
of a token stream, in emission order. -/
def groupsJoined (tokens : List Tok) : Option Chars :=
  ((iterate_groups_from_source tokens).mapM strOfTokens).map List.flatten

/-- A serialized figure: the PNG byte-buffer written by `savefig`, modelled
by the identity of the figure it renders. -/
structure Png where
  fig : Nat
  deriving DecidableEq

/-- The mutable state of `OutputCage` (line 65): the set of already-shown
figures, the queue of pending serialized figures, and the persistent
stdout/stderr sinks with their previously-read snapshots. -/
structure OutputCage where
  fig_index : List Nat
  last_drawn : List Png
  my_stdout : Chars
  my_stdout_old : Chars
  my_stderr : Chars
  my_stderr_old : Chars
  deriving DecidableEq

/-- `OutputCage.__init__` (line 78): empty registries and sinks. -/
def OutputCage.init : OutputCage :=
  ⟨[], [], [], [], [], []⟩

/-- `OutputCage.get_stdout` (line 136): the text past the previously-read
prefix, and the cage with the read snapshot advanced to the full text. -/
def get_stdout (c : OutputCage) : Chars × OutputCage :=
  (c.my_stdout.drop c.my_stdout_old.length, { c with my_stdout_old := c.my_stdout })

/-- `OutputCage.get_stderr` (line 143): same diff rule on the stderr sink. -/
def get_stderr (c : OutputCage) : Chars × OutputCage :=
  (c.my_stderr.drop c.my_stderr_old.length, { c with my_stderr_old := c.my_stderr })

/-- `OutputCage.pylab_show` (line 150): clear the queue, serialize every
open figure not already recorded as shown, record all open figures as
shown.  The open-figure handles enumerated from the graphics registry are
an input. -/
def pylab_show (openFigs : List Nat) (c : OutputCage) : OutputCage :=
  let new_figures := openFigs.filter (fun f => ¬ f ∈ c.fig_index)
  { c with
    last_drawn := new_figures.map Png.mk,
    fig_index := openFigs.foldl (fun acc f => if f ∈ acc then acc else acc ++ [f]) c.fig_index }

/-- `OutputCage.figure_show` (line 174): unconditionally serialize and queue
the one figure, regardless of prior-shown status. -/
def figure_show (figure : Nat) (c : OutputCage) : OutputCage :=
  { c with last_drawn := c.last_drawn ++ [Png.mk figure] }

/-- `OutputCage.get_figures` (line 183): drain and clear the queue. -/
def get_figures (c : OutputCage) : List Png × OutputCage :=
  (c.last_drawn, { c with last_drawn := [] })

/-- A graphics-show call performed by a group's code while caged: either the
module-level show-all hook or one figure's own show method. -/
inductive FigEvent where
  | showAll (openFigs : List Nat)
  | showOne (fig : Nat)
  deriving DecidableEq

/-- Dispatch one show call to the installed hook. -/
def applyFigEvent (c : OutputCage) : FigEvent → OutputCage
  | .showAll figs => pylab_show figs c
  | .showOne f => figure_show f c

/-- All show calls of one capture region, in order. -/
def applyFigEvents (c : OutputCage) (evs : List FigEvent) : OutputCage :=
  evs.foldl applyFigEvent c

/-- A raised Python exception: its class (`type(e)`) and its `repr`. -/
structure ErrVal where
  kind : Chars
  reprText : Chars
  deriving DecidableEq

/-- The control outcome of dynamically executing one group's source:
normal completion, a cooperative-termination signal (KeyboardInterrupt or
SystemExit), or any other raised exception. -/
inductive Outcome where
  | normal
  | interrupt
  | raises (e : ErrVal)
  deriving DecidableEq

/-- The oracle describing what one group's code does when executed: the
text it writes to the redirected stdout/stderr channels, the graphics-show
calls it performs, and its control outcome. -/
structure Behavior where
  writesOut : Chars
  writesErr : Chars
  figEvents : List FigEvent
  outcome : Outcome
  deriving DecidableEq

/-- Decimal digits of a number (`"{}".format(n)`). -/
def natChars (n : Nat) : Chars :=
  Nat.toDigits 10 n

/-- The annotation prefix built in `CodeGroup.execute` (lines 425-427):
`"On block number {index}, with sourcecode:"`, the source between
triple-quote fences, and the closing phrase; the raised error's repr is
appended after it. -/
def annPrefix (index : Nat) (source : Chars) : Chars :=
  ("On block number ").data ++ natChars index ++ (", with sourcecode:\n").data ++
    [sq, sq, sq, '\n'] ++ source ++ [sq, sq, sq] ++
    ("\n the following exception has been raised:\n").data

/-- The re-raised, annotated error of `CodeGroup.execute` (line 428): the
same exception class, with the annotation prefix prepended to the repr of
the original error. -/
structure AnnError where
  kind : Chars
  message : Chars
  deriving DecidableEq

/-- The `results` record stored by `CodeGroup.execute` (line 441); the
`exceptions generated` entry is the local `exceptions` variable, which the
method initializes to None and never reassigns. -/
structure ExecResults where
  standard_output : Chars
  standard_error : Chars
  generated_figures : List Png
  exceptions_generated : Option ErrVal
  interrupted : Bool
  deriving DecidableEq

/-- The extraction step closing a capture region (lines 429-446): diff both
streams, drain the figure queue, and build the `results` record with the
interrupted flag of the control outcome. -/
def extractResults (o : Outcome) (cage2 : OutputCage) : ExecResults × OutputCage :=
  let r1 := get_stdout cage2
  let r2 := get_stderr r1.2
  let r3 := get_figures r2.2
  (⟨r1.1, r2.1, r3.1, none, decide (o = Outcome.interrupt)⟩, r3.2)

/-- `CodeGroup.execute` (line 407), with `extractResults` above as its
extraction step: run the group's reconstructed source against the shared
namespace inside the cage's capture region.  The writes and show calls
land in the cage's persistent sinks; a cooperative termination is recorded
in the result's `interrupted` flag after the extraction still runs; any
other exception is re-raised annotated with the group's index and source,
leaving the group's `results` record empty.  `none` models a failure of
`str(self)` itself. -/
def execute (tokens : List Tok) (index : Nat) (b : Behavior) (cage : OutputCage) :
    Option (Except AnnError (ExecResults × OutputCage)) :=
  match strOfTokens tokens with
  | none => none
  | some src =>
    let cage1 := { cage with
      my_stdout := cage.my_stdout ++ b.writesOut,
      my_stderr := cage.my_stderr ++ b.writesErr }
    let cage2 := applyFigEvents cage1 b.figEvents
    match b.outcome with
    | .raises e => some (.error ⟨e.kind, annPrefix index src ++ e.reprText⟩)
    | o => some (.ok (extractResults o cage2))

/-- The execution loop of `run_file` (lines 566-570): run each group while
`do_execute` holds, reassigning the flag from the result's `interrupted`
entry; a fatal annotated error unwinds, leaving the failing group and all
later groups without results.  Returns each group's `results` field (in
order) and the fatal error if one was raised. -/
def runAll : OutputCage → Nat → Bool → List (List Tok × Behavior) →
    Option (List (Option ExecResults) × Option AnnError)
  | _, _, _, [] => some ([], none)
  | cage, index, doExec, (g, b) :: rest =>
    if doExec then
      match execute g index b cage with
      | none => none
      | some (.error e) => some (none :: rest.map (fun _ => none), some e)
      | some (.ok (r, cage2)) =>
        match runAll cage2 (index + 1) (! r.interrupted) rest with
        | none => none
        | some (l, o) => some (some r :: l, o)
    else
      match runAll cage (index + 1) false rest with
      | none => none
      | some (l, o) => some (none :: l, o)

/-- Characters skipped by the host `eval` around an expression. -/
def isEvalSkip (c : Char) : Bool :=
  c = ' ' ∨ c = '\t' ∨ c = '\n' ∨ c = '\r'

/-- The opening string-literal delimiter at the head of a source text. -/
def detectDelim (s : Chars) : Option Chars :=
  let dq : Char := '"'
  if s.take 3 = [dq, dq, dq] then some [dq, dq, dq]
  else if s.take 3 = [sq, sq, sq] then some [sq, sq, sq]
  else if s.take 1 = [dq] then some [dq]
  else if s.take 1 = [sq] then some [sq]
  else none

/-- Scan up to the closing delimiter, keeping backslash escapes intact;
returns the raw literal body and the remaining text. -/
def scanUntilClose (delim : Chars) : Chars → Option (Chars × Chars)
  | [] => none
  | c :: rest =>
    if (c :: rest).take delim.length = delim then some ([], (c :: rest).drop delim.length)
    else if c = '\\' then
      match rest with
      | [] => none
      | d :: rest2 => (fun r => ('\\' :: d :: r.1, r.2)) <$> scanUntilClose delim rest2
    else (fun r => (c :: r.1, r.2)) <$> scanUntilClose delim rest

/-- Fuelled loop evaluating a concatenation of adjacent string literals. -/
def pyEvalGo : Nat → Chars → Option Chars
  | _, [] => some []
  | 0, _ => none
  | fuel + 1, s =>
    let t := s.dropWhile isEvalSkip
    if t = [] then some []
    else
      match detectDelim t with
      | none => none
      | some delim =>
        match scanUntilClose delim (t.drop delim.length) with
        | none => none
        | some (raw, rest) =>
          match pyEvalGo fuel rest with
          | none => none
          | some more => some (unescapePy raw ++ more)

/-- Models the host `eval` applied to the reconstructed source of a
docstring logical line (`eval(str(...))` at line 378): evaluate one or more
adjacent string literals surrounded by layout; `none` models the
SyntaxError on any other shape. -/
def pyEvalExpr (s : Chars) : Option Chars :=
  if s.dropWhile isEvalSkip = [] then none
  else pyEvalGo (s.length + 1) s

/-- Tab expansion of `docstring_text.replace` (line 391). -/
def expandTabs (s : Chars) : Chars :=
  s.flatMap (fun c => if c = '\t' then ("    ").data else [c])

/-- The annotated note built for one accepted nested docstring
(lines 379-391), parameterized by the dedent function applied to the
docstring body: the opening line's source under the code marker, then the
dedented docstring body, with tabs expanded to four spaces. -/
def renderWithEq (equalizeFn : Chars → Chars) (line_str_pre evaled : Chars) : Chars :=
  let header := (".. note::\n\n\t.. code:: python\n\n").data
  let s1 := joinNl (((pySplitlines line_str_pre).filter hasContent).map
    (fun l => '\t' :: '\t' :: l))
  let t1 := header ++ s1 ++ ("\n\n").data
  let equalized := equalizeFn evaled
  let s2 := joinNl ((pySplitlines equalized).map (fun l => '\t' :: l))
  expandTabs (t1 ++ s2 ++ ("\n\n").data)

/-- The annotated note of `extract_docstrings` (lines 379-391), with the
body dedented by `_equalize_docstring` as in the source. -/
def renderDocstring (line_str_pre evaled : Chars) : Chars :=
  renderWithEq _equalize_docstring line_str_pre evaled

/-- The scan of `extract_docstrings` (lines 372-391) over the logical lines
paired with their docstring flags, carrying the previous line and flag:
an index is accepted when its line is a docstring, the previous line is
not, and the previous line opens a block; the annotation is rendered from
the reconstructed previous line and the evaluated docstring line. -/
def extractGo : Option (List Tok × Bool) → List (List Tok × Bool) → Option (List Chars)
  | _, [] => some []
  | prev, (line, isDoc) :: rest =>
    let step := extractGo (some (line, isDoc)) rest
    match prev with
    | none => step
    | some (pl, pd) =>
      if isDoc && ! pd then
        if _is_block_start pl then
          match strOfTokens pl, strOfTokens line with
          | some pre, some ls =>
            match pyEvalExpr ls with
            | some body => (fun ds => renderDocstring pre body :: ds) <$> step
            | none => none
          | _, _ => none
        else step
      else step

/-- `CodeGroup.extract_docstrings` (line 368). -/
def extract_docstrings (tokens : List Tok) : Option (List Chars) :=
  let lines := _generate_logical_lines tokens
  extractGo none (lines.map (fun l => (l, decide (_is_docstring l ≠ []))))

/-- The deterministic figure filename of `CodeGroup.compile` (line 503). -/
def figName (index figIdx : Nat) : Chars :=
  ("figure_").data ++ natChars index ++ ['_'] ++ natChars figIdx ++ (".png").data

/-- `CodeGroup.compile` (line 465): a pure-docstring group becomes a prose
fragment; any other group becomes a code block, its nested-docstring notes,
and - when a results record exists - the stderr warning, exception
warning, literal stdout block and one image line per captured figure, with
the figure payloads keyed by their deterministic filenames.  `figure_dict`
is bound only inside the `if "generated figures" in self.results:` branch
(line 500) yet returned unconditionally (line 511), so compiling a
non-docstring group whose results record is empty - a group that was never
executed - raises UnboundLocalError, modelled by `Except.error` carrying
the unbound name. -/
def compileGroup (tokens : List Tok) (index : Nat) (results : Option ExecResults) :
    Option (Except Chars (Chars × List (Chars × Png))) :=
  let content := _is_docstring tokens
  if content ≠ [] then some (Except.ok (content ++ ['\n'], []))
  else
    match strOfTokens tokens with
    | none => none
    | some s =>
      match extract_docstrings tokens with
      | none => none
      | some ds =>
        let rst0 := (".. code:: python\n\n").data ++
          joinNl ((splitNl s).map (fun l => ("    ").data ++ l))
        let rst1 := rst0 ++ (ds.map (fun d => '\n' :: (d ++ ['\n']))).flatten
        match results with
        | none => some (Except.error (("figure_dict").data))
        | some r =>
          let rst2 := rst1 ++ ("\n\n").data
          let rst3 := rst2 ++
            (if r.standard_error ≠ [] then
              (".. warning::\n\n    ::\n\n").data ++
                ((splitNl r.standard_error).map
                  (fun l => ("        ").data ++ l ++ ['\n'])).flatten
            else [])
          let rst4 := rst3 ++
            (match r.exceptions_generated with
            | none => []
            | some e => (".. warning:: Exception Raised\n\n    ::\n\n").data ++
                ((splitNl e.reprText).map
                  (fun l => ("        ").data ++ l ++ ['\n'])).flatten)
          let rst5 := rst4 ++
            (if r.standard_output ≠ [] then
              ("::\n\n").data ++
                ((splitNl r.standard_output).map
                  (fun l => ("    ").data ++ l ++ ['\n'])).flatten
            else [])
          let figs := r.generated_figures.enum
          let rst6 := rst5 ++ (figs.map (fun p =>
            (".. image:: ./").data ++ figName index p.1 ++ ("\n\n").data)).flatten
          some (Except.ok (rst6, figs.map (fun p => (figName index p.1, p.2))))

/-- The loop of the compile phase: `compile` is called on each group in
order, and the first raised error aborts the comprehension - the remaining
groups are never compiled. -/
def compileAllGo : Nat → List (List Tok × Option ExecResults) →
    Option (Except Chars (List (Chars × List (Chars × Png))))
  | _, [] => some (Except.ok [])
  | idx, (g, r) :: rest =>
    match compileGroup g idx r with
    | none => none
    | some (Except.error e) => some (Except.error e)
    | some (Except.ok c) =>
      match compileAllGo (idx + 1) rest with
      | none => none
      | some (Except.error e) => some (Except.error e)
      | some (Except.ok cs) => some (Except.ok (c :: cs))

/-- The compile phase of `run_file` (line 593): the list comprehension
`[group.compile(output_dir) for group in groups]`, pairing each group with
whatever results record it holds, whether or not it was executed. -/
def compileAll (gs : List (List Tok)) (results : List (Option ExecResults)) :
    Option (Except Chars (List (Chars × List (Chars × Png)))) :=
  compileAllGo 0 (gs.zip results)

/-- A Python error raised while generating the namespace. -/
inductive PyErr where
  | nameError (name : Chars)
  deriving DecidableEq

/-- The interpreter-wide `sys` module state touched by `generate_globals`.
The module object bound inside the generated namespace is this same shared
module, so mutations of it are observable both inside the namespace and
process-wide. -/
structure RealSys where
  argv : List Chars
  exitRaisesInterrupt : Bool
  deriving DecidableEq

/-- The generated namespace as observable through its seeded bindings. -/
structure GlobalsNS where
  dunderNameMain : Bool
  sysImported : Bool
  mplBackendAgg : Bool
  deriving DecidableEq

/-- `OutputCage.generate_globals` (line 191), modelled against the dynamic
`exec` semantics.  Line 196 interpolates the module-level binding `argv`
(the method takes no argument and `run_file` never passes its own `argv`
parameter in), so the call raises NameError whenever that binding is
absent - it is defined only by the command-line branch of the program.
Otherwise: `__name__` is seeded to `"__main__"` in the namespace; `sys` is
imported into the namespace and `sys.argv` is set on that shared module;
the `exec` calls of lines 198-200 run without an explicit namespace, so the
`__raises` helper lands in the method frame's locals mapping (where the
following `exec` finds it) and `sys.exit` is replaced on the interpreter-
wide `sys` module by the hook raising KeyboardInterrupt; finally the Agg
matplotlib backend is forced inside the namespace. -/
def generate_globals (moduleArgv : Option (List Chars)) (sys : RealSys) :
    Except PyErr (GlobalsNS × RealSys) :=
  match moduleArgv with
  | none => .error (.nameError ("argv").data)
  | some argv =>
    .ok (⟨true, true, true⟩, { sys with argv := argv, exitRaisesInterrupt := true })

/-! ### Claim-side definitions and contract predicates -/

/-- Both stream cursors of the cage have been read up to their current
contents (the state between two capture regions). -/
def synced (c : OutputCage) : Prop :=
  c.my_stdout_old = c.my_stdout ∧ c.my_stderr_old = c.my_stderr

/-- A token that is structurally insignificant or a string literal (the
admissible tokens of a docstring line). -/
def okDocTok (t : Tok) : Prop :=
  t.type ∈ _IGNORABLE_TOKENS ∨ t.type = TokType.STRING

/-- The concatenated evaluated contents of the string-literal tokens of a
line, in order. -/
def concatEval (tl : List Tok) : Chars :=
  (tl.filter (fun t => decide (t.type = TokType.STRING))).flatMap
    (fun t => evalPyStr t.string)

/-- The figures serialized and queued by one show event when it fires from
the given cage state. -/
def queuedByEvent (c : OutputCage) : FigEvent → List Png
  | .showAll figs => (figs.filter (fun f => ¬ f ∈ c.fig_index)).map Png.mk
  | .showOne f => [Png.mk f]

/-- Every figure queued by either hook during a run of show events. -/
def queuedPngs : OutputCage → List FigEvent → List Png
  | _, [] => []
  | c, e :: evs => queuedByEvent c e ++ queuedPngs (applyFigEvent c e) evs

/-- Whether a show event is the show-all hook. -/
def isShowAll : FigEvent → Bool
  | .showAll _ => true
  | .showOne _ => false

/-- The figures queued by the per-figure hook over a run of events. -/
def showOnePngs (evs : List FigEvent) : List Png :=
  evs.filterMap (fun e => match e with
    | .showOne f => some (Png.mk f)
    | .showAll _ => none)

/-- Claim side of C7: the accepted (opening line, docstring line) pairs of
a group, per the claim's acceptance condition - the line classifies as a
docstring, it is not the first line, the previous line does not classify
as a docstring, and the previous line is block-opening. -/
def acceptedGo : Option (List Tok) → List (List Tok) → List (List Tok × List Tok)
  | _, [] => []
  | none, l :: rest => acceptedGo (some l) rest
  | some pl, l :: rest =>
    (if _is_docstring l ≠ [] ∧ _is_docstring pl = [] ∧ _is_block_start pl
      then [(pl, l)] else []) ++ acceptedGo (some l) rest

/-- Claim side of C7: the annotations of a group rendered from its accepted
pairs, with the docstring body dedented by the given function. -/
def extractSpecWith (equalizeFn : Chars → Chars) (tokens : List Tok) : Option (List Chars) :=
  (acceptedGo none (_generate_logical_lines tokens)).mapM (fun p => do
    let pre ← strOfTokens p.1
    let ls ← strOfTokens p.2
    let body ← pyEvalExpr ls
    return renderWithEq equalizeFn pre body)

/-- C7 as stated: dedent by the minimum non-zero indentation over the
non-blank continuation lines, stripping that many leading characters from
each such line and leaving blank lines and the first line untouched. -/
def equalizeClaimNonzero (docstring : Chars) : Chars :=
  let lines := pySplitlines docstring
  if lines.length ≤ 1 then docstring
  else
    let first_line := lines.headD []
    let rest := lines.tail
    let indents := ((rest.filter hasContent).map count_indent).filter
      (fun n => decide (n ≠ 0))
    let min_indent := match indents with
      | [] => 0
      | i :: is => is.foldl Nat.min i
    let rest2 := rest.map (fun l => if hasContent l then l.drop min_indent else l)
    joinNl (first_line :: rest2)

/-- C7 amended: dedent by the minimum indentation (zero allowed) over the
non-blank continuation lines. -/
def equalizeAmended (docstring : Chars) : Chars :=
  let lines := pySplitlines docstring
  if lines.length ≤ 1 then docstring
  else
    let first_line := lines.headD []
    let rest := lines.tail
    let indents := (rest.filter hasContent).map count_indent
    let min_indent := match indents with
      | [] => 0
      | i :: is => is.foldl Nat.min i
    let rest2 := rest.map (fun l => if hasContent l then l.drop min_indent else l)
    joinNl (first_line :: rest2)

/-- Geometric contract on a token run, as guaranteed by the host tokenizer
for sources free of tabs stops and backslash continuations: every token
starts exactly on the untokenize cursor row (no physical row is skipped,
so no backslash padding is ever inserted) at or beyond the cursor column,
and the run holds no ENDMARKER or ENCODING token. -/
def rowColOk : Nat × Nat → List Tok → Bool
  | _, [] => true
  | st, t :: ts =>
    decide (t.startPos.1 = st.1) && decide (st.2 ≤ t.startPos.2) &&
      decide (t.type ≠ TokType.ENDMARKER) && decide (t.type ≠ TokType.ENCODING) &&
      rowColOk (advanceTok st t) ts

/-- No token's text begins with a backslash (true of every token the host
tokenizer emits for a syntactically valid source). -/
def noBackslashText (ts : List Tok) : Bool :=
  ts.all (fun t => decide (t.string.headD ' ' ≠ '\\'))

/-- Trailing tokens after the last logical newline that contribute no text
and no padding when untokenized from the given cursor: an ENDMARKER stops
the scan, and every token before it is an empty-text marker sitting exactly
on the cursor. -/
def tailZero : Nat × Nat → List Tok → Bool
  | _, [] => true
  | st, t :: ts =>
    if t.type = .ENDMARKER then true
    else
      decide (t.string = []) && decide (t.startPos = st) && decide (t.endPos = st) &&
        decide (t.type ≠ TokType.NEWLINE) && decide (t.type ≠ TokType.NL) &&
        decide (t.type ≠ TokType.ENCODING) && tailZero st ts

/-- The backslash-newline padding emitted for skipped rows. -/
def backslashPad (k : Nat) : Chars :=
  (List.replicate k ['\\', '\n']).flatten

/-- Consecutive run pairs (`zip(res[::2], res[1::2])` concatenated). -/
def pairUp : List (List Tok) → List (List Tok)
  | [] => []
  | [_] => []
  | a :: b :: rest => (a ++ b) :: pairUp rest

/-- A list of maximal runs of tokens, alternating on the key `p` and
starting at key `b`, every run non-empty and constant-keyed. -/
inductive Runs (p : Tok → Bool) : Bool → List (List Tok) → Prop
  | nil : ∀ b, Runs p b []
  | cons : ∀ (b : Bool) (r : List Tok) (rs : List (List Tok)),
      r ≠ [] → (∀ t ∈ r, p t = b) → Runs p (!b) rs → Runs p b (r :: rs)

/-- Concrete token builder for witnesses: kind, text, start row/column,
end row/column, physical line. -/
def mkTok (ty : TokType) (s : String) (r1 c1 r2 c2 : Nat) (ln : String) : Tok :=
  ⟨ty, s.data, (r1, c1), (r2, c2), ln.data⟩

/-! ### Concrete token streams (host tokenizer output on small sources) -/

/-- Tokens of the statement line `a = 5` with its logical newline (row 1). -/
def lineAssignA : List Tok :=
  [ mkTok .NAME "a" 1 0 1 1 "a = 5\n",
    mkTok .OP "=" 1 2 1 3 "a = 5\n",
    mkTok .NUMBER "5" 1 4 1 5 "a = 5\n",
    mkTok .NEWLINE "\n" 1 5 1 6 "a = 5\n" ]

/-- Tokens of the statement line `b = 6` with its logical newline (row 2). -/
def lineAssignB : List Tok :=
  [ mkTok .NAME "b" 2 0 2 1 "b = 6\n",
    mkTok .OP "=" 2 2 2 3 "b = 6\n",
    mkTok .NUMBER "6" 2 4 2 5 "b = 6\n",
    mkTok .NEWLINE "\n" 2 5 2 6 "b = 6\n" ]

/-- Token tail of a source whose last row holds one trailing blank line:
the blank line's NL marker followed by the end marker. -/
def tailBlankLine : List Tok :=
  [ mkTok .NL "\n" 2 0 2 1 "\n",
    mkTok .ENDMARKER "" 3 0 3 0 "" ]

/-- Token tail after two statement rows: only the end marker. -/
def tailEnd3 : List Tok :=
  [ mkTok .ENDMARKER "" 3 0 3 0 "" ]

/-- A standalone string literal on its own logical line. -/
def docLineStandalone : List Tok :=
  [ mkTok .STRING "\"docstring\"" 1 0 1 11 "\"docstring\"\n",
    mkTok .NEWLINE "\n" 1 11 1 12 "\"docstring\"\n" ]

/-- The same literal followed by `; a = 5` on the same logical line. -/
def docLineSemicolon : List Tok :=
  [ mkTok .STRING "\"docstring\"" 1 0 1 11 "\"docstring\"; a = 5\n",
    mkTok .OP ";" 1 11 1 12 "\"docstring\"; a = 5\n",
    mkTok .NAME "a" 1 13 1 14 "\"docstring\"; a = 5\n",
    mkTok .OP "=" 1 15 1 16 "\"docstring\"; a = 5\n",
    mkTok .NUMBER "5" 1 17 1 18 "\"docstring\"; a = 5\n",
    mkTok .NEWLINE "\n" 1 18 1 19 "\"docstring\"; a = 5\n" ]

/-- A string literal whose evaluated content is empty, on its own line. -/
def docLineEmptyStr : List Tok :=
  [ mkTok .STRING "\"\"" 1 0 1 2 "\"\"\n",
    mkTok .NEWLINE "\n" 1 2 1 3 "\"\"\n" ]

/-- Tokens of the chain `if x:` / `pass` / `elif y:` / `pass` / `else:` /
`pass` (rows 1-6), without the trailing DEDENT/ENDMARKER run. -/
def chainIfElifElse : List Tok :=
  [ mkTok .NAME "if" 1 0 1 2 "if x:\n",
    mkTok .NAME "x" 1 3 1 4 "if x:\n",
    mkTok .OP ":" 1 4 1 5 "if x:\n",
    mkTok .NEWLINE "\n" 1 5 1 6 "if x:\n",
    mkTok .INDENT "    " 2 0 2 4 "    pass\n",
    mkTok .NAME "pass" 2 4 2 8 "    pass\n",
    mkTok .NEWLINE "\n" 2 8 2 9 "    pass\n",
    mkTok .DEDENT "" 3 0 3 0 "elif y:\n",
    mkTok .NAME "elif" 3 0 3 4 "elif y:\n",
    mkTok .NAME "y" 3 5 3 6 "elif y:\n",
    mkTok .OP ":" 3 6 3 7 "elif y:\n",
    mkTok .NEWLINE "\n" 3 7 3 8 "elif y:\n",
    mkTok .INDENT "    " 4 0 4 4 "    pass\n",
    mkTok .NAME "pass" 4 4 4 8 "    pass\n",
    mkTok .NEWLINE "\n" 4 8 4 9 "    pass\n",
    mkTok .DEDENT "" 5 0 5 0 "else:\n",
    mkTok .NAME "else" 5 0 5 4 "else:\n",
    mkTok .OP ":" 5 4 5 5 "else:\n",
    mkTok .NEWLINE "\n" 5 5 5 6 "else:\n",
    mkTok .INDENT "    " 6 0 6 4 "    pass\n",
    mkTok .NAME "pass" 6 4 6 8 "    pass\n",
    mkTok .NEWLINE "\n" 6 8 6 9 "    pass\n" ]

/-- Tokens of `@deco` / `def f():` / `    pass` (rows 1-3), without the
trailing DEDENT/ENDMARKER run. -/
def decoratedDef : List Tok :=
  [ mkTok .OP "@" 1 0 1 1 "@deco\n",
    mkTok .NAME "deco" 1 1 1 5 "@deco\n",
    mkTok .NEWLINE "\n" 1 5 1 6 "@deco\n",
    mkTok .NAME "def" 2 0 2 3 "def f():\n",
    mkTok .NAME "f" 2 4 2 5 "def f():\n",
    mkTok .OP "(" 2 5 2 6 "def f():\n",
    mkTok .OP ")" 2 6 2 7 "def f():\n",
    mkTok .OP ":" 2 7 2 8 "def f():\n",
    mkTok .NEWLINE "\n" 2 8 2 9 "def f():\n",
    mkTok .INDENT "    " 3 0 3 4 "    pass\n",
    mkTok .NAME "pass" 3 4 3 8 "    pass\n",
    mkTok .NEWLINE "\n" 3 8 3 9 "    pass\n" ]

/-- Tokens of the group `def f():` holding the nested docstring
`"""a` / `b` / `  c"""` and then `    pass` (rows 1-5): the docstring's
continuation lines have indentations 0 and 2, so the minimum indentation
over the non-blank continuation lines is 0 while the minimum non-zero one
is 2. -/
def groupDefDocstring : List Tok :=
  [ mkTok .NAME "def" 1 0 1 3 "def f():\n",
    mkTok .NAME "f" 1 4 1 5 "def f():\n",
    mkTok .OP "(" 1 5 1 6 "def f():\n",
    mkTok .OP ")" 1 6 1 7 "def f():\n",
    mkTok .OP ":" 1 7 1 8 "def f():\n",
    mkTok .NEWLINE "\n" 1 8 1 9 "def f():\n",
    mkTok .INDENT "    " 2 0 2 4 "    \"\"\"a\n",
    mkTok .STRING "\"\"\"a\nb\n  c\"\"\"" 2 4 4 6 "    \"\"\"a\n",
    mkTok .NEWLINE "\n" 4 6 4 7 "  c\"\"\"\n",
    mkTok .NAME "pass" 5 4 5 8 "    pass\n",
    mkTok .NEWLINE "\n" 5 8 5 9 "    pass\n" ]

/-- The cage after a first group shows figure 1 through the show-all hook
and its results are extracted: figure 1 is recorded as shown and the queue
is drained. -/
def figCageC1 : OutputCage :=
  (get_figures (applyFigEvents OutputCage.init [FigEvent.showAll [1]])).2

/-- The show calls of a second group: the figure's own show method, then
the show-all hook while figure 1 is still the only open figure. -/
def figEventsC2 : List FigEvent :=
  [FigEvent.showOne 1, FigEvent.showAll [1]]

/-! ### Helper lemmas -/

theorem concatEval_cons (t : Tok) (ts : List Tok) :
    concatEval (t :: ts) =
      (if t.type = TokType.STRING then evalPyStr t.string else []) ++ concatEval ts := by
  by_cases h : t.type = TokType.STRING <;>
    simp [concatEval, List.filter_cons, h]

theorem okDocTok_mem {t : Tok} (h : okDocTok t) :
    t.type ∈ _IGNORABLE_TOKENS ++ [TokType.STRING] := by
  rcases h with h1 | h1
  · exact List.mem_append_left _ h1
  · simp [h1]

theorem isDocGo_ok : ∀ tl : List Tok, (∀ t ∈ tl, okDocTok t) →
    isDocGo tl = some (concatEval tl)
  | [], _ => by simp [isDocGo, concatEval]
  | t :: ts, h => by
    have ht : okDocTok t := h t (by simp)
    have hts := isDocGo_ok ts (fun x hx => h x (by simp [hx]))
    by_cases hstr : t.type = TokType.STRING <;>
      simp [isDocGo, okDocTok_mem ht, hstr, hts, concatEval_cons]

theorem isDocGo_bad : ∀ tl : List Tok, ¬ (∀ t ∈ tl, okDocTok t) → isDocGo tl = none
  | [], h => absurd (by simp) h
  | t :: ts, h => by
    by_cases ht : okDocTok t
    · have hts : ¬ ∀ x ∈ ts, okDocTok x := by
        intro hh
        exact h (by
          intro x hx
          rcases List.mem_cons.mp hx with rfl | hx
          · exact ht
          · exact hh x hx)
      by_cases hstr : t.type = TokType.STRING <;>
        simp [isDocGo, okDocTok_mem ht, hstr, isDocGo_bad ts hts]
    · have hmem : ¬ t.type ∈ _IGNORABLE_TOKENS ++ [TokType.STRING] := by
        intro hc
        rcases List.mem_append.mp hc with hc | hc
        · exact ht (Or.inl hc)
        · exact ht (Or.inr (by simpa using hc))
      simp [isDocGo, hmem]

theorem mem_foldl_insert : ∀ (figs : List Nat) (acc : List Nat),
    (∀ x ∈ acc, x ∈ figs.foldl (fun a f => if f ∈ a then a else a ++ [f]) acc) ∧
    (∀ x ∈ figs, x ∈ figs.foldl (fun a f => if f ∈ a then a else a ++ [f]) acc)
  | [], acc => ⟨fun x hx => by simpa using hx, fun x hx => by simp at hx⟩
  | f :: figs, acc => by
    have ih := mem_foldl_insert figs (if f ∈ acc then acc else acc ++ [f])
    have hmemf : f ∈ (if f ∈ acc then acc else acc ++ [f]) := by
      by_cases hf : f ∈ acc <;> simp [hf]
    have hkeep : ∀ x ∈ acc, x ∈ (if f ∈ acc then acc else acc ++ [f]) := by
      intro x hx
      by_cases hf : f ∈ acc <;> simp [hf, hx]
    refine ⟨fun x hx => ?_, fun x hx => ?_⟩ <;> simp only [List.foldl_cons]
    · exact ih.1 x (hkeep x hx)
    · rcases List.mem_cons.mp hx with heq | hx2
      · refine ih.1 x ?_
        rw [heq]
        exact hmemf
      · exact ih.2 x hx2

theorem applyFigEvents_no_showAll : ∀ (evs : List FigEvent) (c : OutputCage),
    (∀ e ∈ evs, isShowAll e = false) →
    (applyFigEvents c evs).last_drawn = c.last_drawn ++ showOnePngs evs
  | [], c, _ => by simp [applyFigEvents, showOnePngs]
  | e :: evs, c, h => by
    cases e with
    | showAll figs =>
      exact absurd (h (FigEvent.showAll figs) (by simp)) (by simp [isShowAll])
    | showOne f =>
      have ih := applyFigEvents_no_showAll evs (applyFigEvent c (.showOne f))
        (fun x hx => h x (by simp [hx]))
      have hstep : applyFigEvents c (FigEvent.showOne f :: evs) =
          applyFigEvents (applyFigEvent c (.showOne f)) evs := by
        simp [applyFigEvents]
      rw [hstep, ih]
      simp [applyFigEvent, figure_show, showOnePngs]

theorem applyFigEvents_append (c : OutputCage) (evs1 evs2 : List FigEvent) :
    applyFigEvents c (evs1 ++ evs2) = applyFigEvents (applyFigEvents c evs1) evs2 := by
  simp [applyFigEvents, List.foldl_append]

/-! ### Claim C3 -/

/-- C3: a logical line classifies as a docstring (non-empty classification
by `_is_docstring`) iff every token is structurally insignificant or a
string literal and the concatenated evaluated content is non-empty; in
particular a standalone string literal on its own logical line is a
docstring, while the same literal followed by `; a = 5` is not, and an
empty string literal is not. -/
theorem docstring_classification :
    (∀ tl : List Tok, _is_docstring tl ≠ [] ↔
      ((∀ t ∈ tl, okDocTok t) ∧ concatEval tl ≠ [])) ∧
    _is_docstring docLineStandalone ≠ [] ∧
    _is_docstring docLineSemicolon = [] ∧
    _is_docstring docLineEmptyStr = [] := by
  refine ⟨fun tl => ?_, by decide, by decide, by decide⟩
  by_cases h : ∀ t ∈ tl, okDocTok t
  · rw [_is_docstring, isDocGo_ok tl h]
    exact ⟨fun hne => ⟨h, hne⟩, fun p => p.2⟩
  · rw [_is_docstring, isDocGo_bad tl h]
    simp [h]

/-! ### Claim C8 -/

/-- C8: `generate_globals` raises NameError when the module-level `argv`
binding is absent (any library use of `run_file`, whose own `argv`
parameter is never consulted), and otherwise seeds the execution-context
marker, the argument vector on the shared sys module, the exit hook
raising the cooperative-termination signal, and the Agg backend. -/
theorem generate_globals_seeding :
    generate_globals none ⟨[], false⟩ = .error (.nameError (("argv").data)) ∧
    (∀ (argv : List Chars) (sys : RealSys), ∃ ns sys2,
      generate_globals (some argv) sys = .ok (ns, sys2) ∧
      ns.dunderNameMain = true ∧ ns.sysImported = true ∧ ns.mplBackendAgg = true ∧
      sys2.argv = argv ∧ sys2.exitRaisesInterrupt = true) := by
  refine ⟨rfl, fun argv sys => ⟨⟨true, true, true⟩, _, rfl, rfl, rfl, rfl, rfl, rfl⟩⟩

/-! ### Claim C9 -/

/-- C9 as stated is false: after a first group has shown figure 1, a second
group that queues figure 1 through the per-figure hook and then calls the
show-all hook drains an empty queue - the figure it queued is absent,
because the show-all hook first clears the queue. -/
theorem figure_queue_counterexample :
    Png.mk 1 ∈ queuedPngs figCageC1 figEventsC2 ∧
    (get_figures (applyFigEvents figCageC1 figEventsC2)).1 = [] ∧
    ¬ (∀ p ∈ queuedPngs figCageC1 figEventsC2,
        p ∈ (get_figures (applyFigEvents figCageC1 figEventsC2)).1) := by
  decide

/-- C9 amended: the show-all hook serializes and queues exactly the open
figures not already recorded as shown (recording all of them), the
per-figure hook queues its figure unconditionally, and the drained queue
holds exactly the figures queued by the last show-all call and the
per-figure calls after it (a show-all call clears the queue first); when
no show-all call occurs, the previously queued figures plus all per-figure
calls are drained. -/
theorem figure_hooks_amended :
    (∀ (figs : List Nat) (c : OutputCage),
      (pylab_show figs c).last_drawn =
        (figs.filter (fun f => ¬ f ∈ c.fig_index)).map Png.mk ∧
      (∀ f ∈ figs, f ∈ (pylab_show figs c).fig_index) ∧
      (∀ f ∈ c.fig_index, f ∈ (pylab_show figs c).fig_index)) ∧
    (∀ (f : Nat) (c : OutputCage),
      figure_show f c = { c with last_drawn := c.last_drawn ++ [Png.mk f] }) ∧
    (∀ (c : OutputCage) (evs : List FigEvent), (∀ e ∈ evs, isShowAll e = false) →
      (get_figures (applyFigEvents c evs)).1 = c.last_drawn ++ showOnePngs evs) ∧
    (∀ (c : OutputCage) (evs1 : List FigEvent) (figs : List Nat) (evs2 : List FigEvent),
      (∀ e ∈ evs2, isShowAll e = false) →
      (get_figures (applyFigEvents c (evs1 ++ FigEvent.showAll figs :: evs2))).1 =
        queuedByEvent (applyFigEvents c evs1) (FigEvent.showAll figs) ++ showOnePngs evs2) := by
  refine ⟨fun figs c => ⟨rfl, ?_, ?_⟩, fun f c => rfl, ?_, ?_⟩
  · exact fun f hf => (mem_foldl_insert figs c.fig_index).2 f hf
  · exact fun f hf => (mem_foldl_insert figs c.fig_index).1 f hf
  · intro c evs h
    simpa [get_figures] using applyFigEvents_no_showAll evs c h
  · intro c evs1 figs evs2 h
    have hstep : applyFigEvents c (evs1 ++ FigEvent.showAll figs :: evs2) =
        applyFigEvents (applyFigEvent (applyFigEvents c evs1) (.showAll figs)) evs2 := by
      rw [applyFigEvents_append]
      simp [applyFigEvents]
    rw [hstep]
    have := applyFigEvents_no_showAll evs2
      (applyFigEvent (applyFigEvents c evs1) (.showAll figs)) h
    simp only [get_figures, this]
    simp [applyFigEvent, pylab_show, queuedByEvent]

theorem applyFigEvent_streams (c : OutputCage) (e : FigEvent) :
    (applyFigEvent c e).my_stdout = c.my_stdout ∧
    (applyFigEvent c e).my_stdout_old = c.my_stdout_old ∧
    (applyFigEvent c e).my_stderr = c.my_stderr ∧
    (applyFigEvent c e).my_stderr_old = c.my_stderr_old := by
  cases e <;> simp [applyFigEvent, pylab_show, figure_show]

theorem applyFigEvents_streams : ∀ (evs : List FigEvent) (c : OutputCage),
    (applyFigEvents c evs).my_stdout = c.my_stdout ∧
    (applyFigEvents c evs).my_stdout_old = c.my_stdout_old ∧
    (applyFigEvents c evs).my_stderr = c.my_stderr ∧
    (applyFigEvents c evs).my_stderr_old = c.my_stderr_old
  | [], _ => ⟨rfl, rfl, rfl, rfl⟩
  | e :: evs, c => by
    have h1 := applyFigEvent_streams c e
    have ih := applyFigEvents_streams evs (applyFigEvent c e)
    have hstep : applyFigEvents c (e :: evs) = applyFigEvents (applyFigEvent c e) evs := by
      simp [applyFigEvents]
    rw [hstep]
    exact ⟨ih.1.trans h1.1, ih.2.1.trans h1.2.1, ih.2.2.1.trans h1.2.2.1,
      ih.2.2.2.trans h1.2.2.2⟩

theorem extractResults_spec (o : Outcome) (c : OutputCage) :
    (extractResults o c).1.standard_output = c.my_stdout.drop c.my_stdout_old.length ∧
    (extractResults o c).1.standard_error = c.my_stderr.drop c.my_stderr_old.length ∧
    (extractResults o c).1.interrupted = decide (o = Outcome.interrupt) ∧
    synced (extractResults o c).2 :=
  ⟨rfl, rfl, rfl, rfl, rfl⟩

theorem execute_not_raises (g : List Tok) (idx : Nat) (b : Behavior) (cage : OutputCage)
    (s : Chars) (hs : strOfTokens g = some s)
    (ho : ∀ e, b.outcome ≠ Outcome.raises e) :
    execute g idx b cage = some (.ok (extractResults b.outcome
      (applyFigEvents { cage with
          my_stdout := cage.my_stdout ++ b.writesOut,
          my_stderr := cage.my_stderr ++ b.writesErr } b.figEvents))) := by
  cases hb : b.outcome with
  | raises e => exact absurd hb (ho e)
  | normal => simp only [execute, hs, hb]
  | interrupt => simp only [execute, hs, hb]

theorem execute_ok (g : List Tok) (idx : Nat) (b : Behavior) (cage : OutputCage)
    (s : Chars) (hs : strOfTokens g = some s)
    (ho : ∀ e, b.outcome ≠ Outcome.raises e) :
    ∃ r cage2, execute g idx b cage = some (.ok (r, cage2)) ∧
      r.interrupted = decide (b.outcome = Outcome.interrupt) ∧
      r.standard_output = (cage.my_stdout ++ b.writesOut).drop cage.my_stdout_old.length ∧
      r.standard_error = (cage.my_stderr ++ b.writesErr).drop cage.my_stderr_old.length ∧
      synced cage2 := by
  have hstr := applyFigEvents_streams b.figEvents
    { cage with my_stdout := cage.my_stdout ++ b.writesOut,
                my_stderr := cage.my_stderr ++ b.writesErr }
  have hspec := extractResults_spec b.outcome
    (applyFigEvents { cage with
        my_stdout := cage.my_stdout ++ b.writesOut,
        my_stderr := cage.my_stderr ++ b.writesErr } b.figEvents)
  refine ⟨(extractResults b.outcome (applyFigEvents { cage with
        my_stdout := cage.my_stdout ++ b.writesOut,
        my_stderr := cage.my_stderr ++ b.writesErr } b.figEvents)).1,
    (extractResults b.outcome (applyFigEvents { cage with
        my_stdout := cage.my_stdout ++ b.writesOut,
        my_stderr := cage.my_stderr ++ b.writesErr } b.figEvents)).2,
    (execute_not_raises g idx b cage s hs ho).trans (by rfl),
    hspec.2.2.1,
    hspec.1.trans (by rw [hstr.1, hstr.2.1]),
    hspec.2.1.trans (by rw [hstr.2.2.1, hstr.2.2.2]),
    hspec.2.2.2⟩

theorem execute_raises (g : List Tok) (idx : Nat) (b : Behavior) (cage : OutputCage)
    (src : Chars) (e : ErrVal) (hs : strOfTokens g = some src)
    (hb : b.outcome = Outcome.raises e) :
    execute g idx b cage = some (.error ⟨e.kind, annPrefix idx src ++ e.reprText⟩) := by
  simp [execute, hs, hb]

theorem runAll_skip : ∀ (post : List (List Tok × Behavior)) (cage : OutputCage) (idx : Nat),
    runAll cage idx false post = some (post.map (fun _ => none), none)
  | [], _, _ => rfl
  | p :: post, cage, idx => by
    simp [runAll, runAll_skip post cage (idx + 1)]

theorem runAll_pre_normals :
    ∀ (pre : List (List Tok × Behavior)) (cage : OutputCage) (idx : Nat)
      (rest : List (List Tok × Behavior)),
      synced cage →
      (∀ p ∈ pre, p.2.outcome = Outcome.normal ∧ ∃ s, strOfTokens p.1 = some s) →
      ∃ (lpre : List (Option ExecResults)) (cage2 : OutputCage), synced cage2 ∧
        lpre.length = pre.length ∧ (∀ x ∈ lpre, x ≠ none) ∧
        runAll cage idx true (pre ++ rest) =
          (runAll cage2 (idx + pre.length) true rest).map (fun q => (lpre ++ q.1, q.2))
  | [], cage, idx, rest, hc, _ => by
    refine ⟨[], cage, hc, rfl, by simp, ?_⟩
    cases hr : runAll cage (idx + 0) true rest with
    | none => simp at hr; simp [hr]
    | some q => simp at hr; simp [hr]
  | p :: pre, cage, idx, rest, hc, h => by
    obtain ⟨hout, s, hs⟩ := h p (by simp)
    obtain ⟨r, cage2, hex, hint, _, _, hsync⟩ :=
      execute_ok p.1 idx p.2 cage s hs (by simp [hout])
    obtain ⟨lpre, cage3, hsync3, hlen, hnn, hrec⟩ :=
      runAll_pre_normals pre cage2 (idx + 1) rest hsync (fun q hq => h q (by simp [hq]))
    have hint2 : r.interrupted = false := by rw [hint, hout]; rfl
    refine ⟨some r :: lpre, cage3, hsync3, by simp [hlen], ?_, ?_⟩
    · intro x hx
      rcases List.mem_cons.mp hx with rfl | hx
      · simp
      · exact hnn x hx
    · have harith : idx + 1 + pre.length = idx + (pre.length + 1) := by omega
      simp only [List.cons_append, runAll, if_true, hex, hint2, Bool.not_false,
        List.append_eq]
      rw [hrec, harith]
      simp only [List.length_cons]
      cases hr : runAll cage3 (idx + (pre.length + 1)) true rest with
      | none => simp
      | some q => simp

theorem mapM_option_length {α β : Type} (f : α → Option β) :
    ∀ (l : List α) (ys : List β), l.mapM f = some ys → ys.length = l.length
  | [], ys, h => by
    simp only [List.mapM_nil, pure, Option.some_inj] at h
    simp [← h]
  | a :: l, ys, h => by
    rw [List.mapM_cons] at h
    cases hfa : f a with
    | none => rw [hfa] at h; simp at h
    | some y =>
      rw [hfa] at h
      cases hl : l.mapM f with
      | none => rw [hl] at h; simp at h
      | some ys2 =>
        rw [hl] at h
        simp only [Option.bind_eq_bind, Option.some_bind, pure, Option.some_inj] at h
        rw [← h]
        simp [mapM_option_length f l ys2 hl]

/-! ### Claim C4 -/

/-- C4: the stdout attributed to a group is the text written since the
previous extraction (the full sink text minus the previously-read-length
prefix) and the cursor then advances to the full text, for stderr alike;
executing two groups in sequence where the first prints `a` and the second
prints `b` attributes `a` to the first and `b` (not `ab`) to the second. -/
theorem output_diffing
    (c : OutputCage) (h : synced c) (g1 g2 : List Tok) (s1 s2 : Chars)
    (h1 : strOfTokens g1 = some s1) (h2 : strOfTokens g2 = some s2)
    (a e1 b e2 : Chars) :
    (∀ d : OutputCage,
      (get_stdout d).1 = d.my_stdout.drop d.my_stdout_old.length ∧
      (get_stdout d).2.my_stdout_old = d.my_stdout ∧
      (get_stderr d).1 = d.my_stderr.drop d.my_stderr_old.length ∧
      (get_stderr d).2.my_stderr_old = d.my_stderr) ∧
    (∃ r1 r2 : ExecResults,
      runAll c 0 true
        [(g1, ⟨a, e1, [], Outcome.normal⟩), (g2, ⟨b, e2, [], Outcome.normal⟩)] =
        some ([some r1, some r2], none) ∧
      r1.standard_output = a ∧ r1.standard_error = e1 ∧
      r2.standard_output = b ∧ r2.standard_error = e2) := by
  refine ⟨fun d => ⟨rfl, rfl, rfl, rfl⟩, ?_⟩
  obtain ⟨r1, cage2, hex1, hint1, hso1, hse1, hsync2⟩ :=
    execute_ok g1 0 ⟨a, e1, [], Outcome.normal⟩ c s1 h1 (by intro e he; simp at he)
  obtain ⟨r2, cage3, hex2, hint2, hso2, hse2, _⟩ :=
    execute_ok g2 1 ⟨b, e2, [], Outcome.normal⟩ cage2 s2 h2 (by intro e he; simp at he)
  have hi1 : r1.interrupted = false := by simpa using hint1
  have hi2 : r2.interrupted = false := by simpa using hint2
  refine ⟨r1, r2, ?_, ?_, ?_, ?_, ?_⟩
  · simp only [runAll, if_true, hex1, hi1, Bool.not_false, hex2, hi2]
  · rw [hso1, h.1]
    exact List.drop_left _ _
  · rw [hse1, h.2]
    exact List.drop_left _ _
  · rw [hso2, hsync2.1]
    exact List.drop_left _ _
  · rw [hse2, hsync2.2]
    exact List.drop_left _ _

/-- Witness for C4 on a fresh cage with the concrete groups `a = 5` and
`b = 6` printing `a` and `b`. -/
theorem output_diffing_witness :
    synced OutputCage.init ∧
    strOfTokens lineAssignA = some (("a = 5\n").data) ∧
    (∃ r1 r2 : ExecResults,
      runAll OutputCage.init 0 true
        [(lineAssignA, ⟨("a").data, ("x").data, [], Outcome.normal⟩),
         (lineAssignB, ⟨("b").data, ("y").data, [], Outcome.normal⟩)] =
        some ([some r1, some r2], none) ∧
      r1.standard_output = ("a").data ∧ r1.standard_error = ("x").data ∧
      r2.standard_output = ("b").data ∧ r2.standard_error = ("y").data) :=
  ⟨⟨rfl, rfl⟩, by decide,
    (output_diffing OutputCage.init ⟨rfl, rfl⟩ lineAssignA lineAssignB
      (("a = 5\n").data) (("b = 6\n").data) (by decide) (by decide)
      (("a").data) (("x").data) (("b").data) (("y").data)).2⟩

/-! ### Claim C5 -/

/-- C5: when a group's code raises a non-cooperative error, the run aborts
with an error of the same kind whose message is annotated with the group's
position index and reconstructed source, the failing group's results record
is left empty, and no later group executes (all groups from the failing one
on have no results). -/
theorem exception_propagation
    (cage : OutputCage) (hc : synced cage) (pre : List (List Tok × Behavior))
    (hpre : ∀ p ∈ pre, p.2.outcome = Outcome.normal ∧ ∃ s, strOfTokens p.1 = some s)
    (g : List Tok) (b : Behavior) (e : ErrVal) (post : List (List Tok × Behavior))
    (src : Chars) (hb : b.outcome = Outcome.raises e) (hs : strOfTokens g = some src) :
    ∃ lpre : List (Option ExecResults), lpre.length = pre.length ∧
      (∀ x ∈ lpre, x ≠ none) ∧
      runAll cage 0 true (pre ++ (g, b) :: post) =
        some (lpre ++ none :: post.map (fun _ => none),
          some ⟨e.kind, annPrefix pre.length src ++ e.reprText⟩) := by
  obtain ⟨lpre, cage2, _, hlen, hnn, hrec⟩ :=
    runAll_pre_normals pre cage 0 ((g, b) :: post) hc hpre
  refine ⟨lpre, hlen, hnn, ?_⟩
  rw [hrec]
  have hz : (0 : Nat) + pre.length = pre.length := by omega
  rw [hz]
  simp only [runAll, if_true, execute_raises g pre.length b cage2 src e hs hb]
  rfl

/-- Witness for C5: one normal group, then a group raising ValueError. -/
theorem exception_propagation_witness :
    ∃ lpre : List (Option ExecResults), lpre.length = 1 ∧
      (∀ x ∈ lpre, x ≠ none) ∧
      runAll OutputCage.init 0 true
        [(lineAssignA, ⟨("1\n").data, [], [], Outcome.normal⟩),
         (lineAssignB, ⟨[], [], [],
           Outcome.raises ⟨("ValueError").data, ("ValueError(2)").data⟩⟩)] =
        some (lpre ++ none :: ([] : List (List Tok × Behavior)).map (fun _ => none),
          some ⟨("ValueError").data,
            annPrefix 1 (("b = 6\n").data) ++ ("ValueError(2)").data⟩) :=
  exception_propagation OutputCage.init ⟨rfl, rfl⟩
    [(lineAssignA, ⟨("1\n").data, [], [], Outcome.normal⟩)]
    (by
      intro p hp
      rw [List.mem_singleton] at hp
      subst hp
      exact ⟨rfl, ("a = 5\n").data, by decide⟩)
    lineAssignB ⟨[], [], [], Outcome.raises ⟨("ValueError").data, ("ValueError(2)").data⟩⟩
    ⟨("ValueError").data, ("ValueError(2)").data⟩ [] (("b = 6\n").data) rfl (by decide)

/-! ### Claim C6 -/

theorem compileGroup_some_ok (g : List Tok) (j : Nat) (r : ExecResults)
    (s : Chars) (hs : strOfTokens g = some s)
    (ds : List Chars) (hds : extract_docstrings g = some ds) :
    ∃ c, compileGroup g j (some r) = some (Except.ok c) := by
  by_cases hdoc : _is_docstring g = []
  · simp only [compileGroup, hdoc, hs, hds, ne_eq, not_true_eq_false, if_false]
    exact ⟨_, rfl⟩
  · simp only [compileGroup, ne_eq, hdoc, not_false_eq_true, if_true]
    exact ⟨_, rfl⟩

theorem compileGroup_none_unbound (g : List Tok) (j : Nat)
    (hdoc : _is_docstring g = []) (s : Chars) (hs : strOfTokens g = some s)
    (ds : List Chars) (hds : extract_docstrings g = some ds) :
    compileGroup g j none = some (Except.error (("figure_dict").data)) := by
  simp only [compileGroup, hdoc, hs, hds, ne_eq, not_true_eq_false, if_false]

theorem compileAllGo_error (e : Chars) :
    ∀ (ps : List (List Tok × Option ExecResults)) (idx : Nat)
      (g2 : List Tok) (r2 : Option ExecResults)
      (tlp : List (List Tok × Option ExecResults)),
    (∀ p ∈ ps, ∀ j, ∃ c, compileGroup p.1 j p.2 = some (Except.ok c)) →
    (∀ j, compileGroup g2 j r2 = some (Except.error e)) →
    compileAllGo idx (ps ++ (g2, r2) :: tlp) = some (Except.error e)
  | [], idx, g2, r2, tlp, _, herr => by
    rw [List.nil_append]
    simp only [compileAllGo, herr idx]
  | (pg, pr) :: ps, idx, g2, r2, tlp, hok, herr => by
    obtain ⟨c, hc⟩ := hok (pg, pr) (by simp) idx
    rw [List.cons_append]
    simp only [compileAllGo, hc,
      compileAllGo_error e ps (idx + 1) g2 r2 tlp
        (fun q hq j => hok q (by simp [hq]) j) herr]

/-- C6: when a group's code triggers cooperative termination, `execute`
completes normally with the `interrupted` flag set and the group's own
output captured and stored, every following group is skipped (left without
results) and no error is raised during execution - but the claim's final
part diverges from the code: the compile phase does not produce a fragment
for every group.  Compiling a skipped non-docstring group finds its results
record empty, so `figure_dict` is unbound at the unconditional `return` of
line 511 and the compile phase aborts with UnboundLocalError instead of
producing the report. -/
theorem cooperative_termination
    (cage : OutputCage) (hc : synced cage) (pre : List (List Tok × Behavior))
    (hpre : ∀ p ∈ pre, p.2.outcome = Outcome.normal ∧
      (∃ s, strOfTokens p.1 = some s) ∧ ∃ ds, extract_docstrings p.1 = some ds)
    (g : List Tok) (b : Behavior) (g2 : List Tok) (b2 : Behavior)
    (post : List (List Tok × Behavior))
    (src : Chars) (dsg : List Chars) (s2 : Chars) (ds2 : List Chars)
    (hb : b.outcome = Outcome.interrupt) (hs : strOfTokens g = some src)
    (hdsg : extract_docstrings g = some dsg)
    (hg2 : _is_docstring g2 = []) (hs2 : strOfTokens g2 = some s2)
    (hds2 : extract_docstrings g2 = some ds2) :
    ∃ (lpre : List (Option ExecResults)) (r : ExecResults),
      lpre.length = pre.length ∧ (∀ x ∈ lpre, x ≠ none) ∧
      runAll cage 0 true (pre ++ (g, b) :: (g2, b2) :: post) =
        some (lpre ++ some r :: ((g2, b2) :: post).map (fun _ => none), none) ∧
      r.interrupted = true ∧
      r.standard_output = b.writesOut ∧ r.standard_error = b.writesErr ∧
      compileAll (pre.map Prod.fst ++ g :: g2 :: post.map Prod.fst)
          (lpre ++ some r :: ((g2, b2) :: post).map (fun _ => none)) =
        some (Except.error (("figure_dict").data)) := by
  obtain ⟨lpre, cage2, hsync2, hlen, hnn, hrec⟩ :=
    runAll_pre_normals pre cage 0 ((g, b) :: (g2, b2) :: post) hc
      (fun p hp => ⟨(hpre p hp).1, (hpre p hp).2.1⟩)
  obtain ⟨r, cage3, hex, hint, hso, hse, _⟩ :=
    execute_ok g pre.length b cage2 src hs (by simp [hb])
  have hi : r.interrupted = true := by rw [hint, hb]; rfl
  refine ⟨lpre, r, hlen, hnn, ?_, hi, ?_, ?_, ?_⟩
  · rw [hrec]
    have hz : (0 : Nat) + pre.length = pre.length := by omega
    rw [hz]
    generalize ((g2, b2) :: post) = rest2
    simp only [runAll, if_true, hex, hi, Bool.not_true,
      runAll_skip rest2 cage3 (pre.length + 1)]
    rfl
  · rw [hso, hsync2.1]
    exact List.drop_left _ _
  · rw [hse, hsync2.2]
    exact List.drop_left _ _
  · rw [compileAll]
    have hzip : (pre.map Prod.fst ++ g :: g2 :: post.map Prod.fst).zip
        (lpre ++ some r :: ((g2, b2) :: post).map (fun _ => none)) =
        (pre.map Prod.fst).zip lpre ++ (g, some r) ::
          (g2, (none : Option ExecResults)) ::
            (post.map Prod.fst).zip (post.map (fun _ => none)) := by
      rw [List.map_cons, List.zip_append (by rw [List.length_map, hlen]),
        List.zip_cons_cons, List.zip_cons_cons]
    rw [hzip, List.append_cons]
    refine compileAllGo_error (("figure_dict").data)
      ((pre.map Prod.fst).zip lpre ++ [(g, some r)]) 0 g2 none
      ((post.map Prod.fst).zip (post.map (fun _ => none))) ?_
      (fun j => compileGroup_none_unbound g2 j hg2 s2 hs2 ds2 hds2)
    intro q hq j
    rcases List.mem_append.mp hq with hq1 | hq2
    · obtain ⟨hqa, hqb⟩ := List.of_mem_zip hq1
      obtain ⟨p, hp, hpeq⟩ := List.mem_map.mp hqa
      obtain ⟨-, ⟨s1, hs1⟩, ds1, hds1⟩ := hpre p hp
      cases hq2v : q.2 with
      | none => exact absurd hq2v (hnn q.2 hqb)
      | some rv =>
        exact compileGroup_some_ok q.1 j rv s1 (by rw [← hpeq]; exact hs1)
          ds1 (by rw [← hpeq]; exact hds1)
    · have hqe : q = (g, some r) := by simpa using hq2
      rw [hqe]
      exact compileGroup_some_ok g j r src hs dsg hdsg

/-- Witness for C6 at a concrete run: a group that interrupts after
printing, followed by a skipped assignment group; the skipped group leaves
`figure_dict` unbound so the compile phase aborts. -/
theorem cooperative_termination_witness :
    ∃ (lpre : List (Option ExecResults)) (r : ExecResults),
      lpre.length = 0 ∧ (∀ x ∈ lpre, x ≠ none) ∧
      runAll OutputCage.init 0 true
        ([] ++ (lineAssignA, ⟨("out").data, ("err").data, [], Outcome.interrupt⟩) ::
          (lineAssignB, (⟨[], [], [], Outcome.normal⟩ : Behavior)) :: []) =
        some (lpre ++ some r ::
          ((lineAssignB, (⟨[], [], [], Outcome.normal⟩ : Behavior)) :: []).map
            (fun _ => none), none) ∧
      r.interrupted = true ∧
      r.standard_output = ("out").data ∧ r.standard_error = ("err").data ∧
      compileAll (([] : List (List Tok × Behavior)).map Prod.fst ++ lineAssignA ::
          lineAssignB :: ([] : List (List Tok × Behavior)).map Prod.fst)
        (lpre ++ some r ::
          ((lineAssignB, (⟨[], [], [], Outcome.normal⟩ : Behavior)) :: []).map
            (fun _ => none)) =
        some (Except.error (("figure_dict").data)) :=
  cooperative_termination OutputCage.init ⟨rfl, rfl⟩ []
    (by intro p hp; simp at hp)
    lineAssignA ⟨("out").data, ("err").data, [], Outcome.interrupt⟩
    lineAssignB ⟨[], [], [], Outcome.normal⟩ []
    (("a = 5\n").data) [] (("b = 6\n").data) []
    rfl (by decide) (by decide) (by decide) (by decide) (by decide)

theorem iterGo_all_extend : ∀ (pairs : List (List Tok × Int)) (acc : List Tok),
    acc ≠ [] → (∀ p ∈ pairs, p.2 = 0 → _is_continued_block p.1 = true) →
    iterGo pairs acc = [acc ++ (pairs.map Prod.fst).flatten]
  | [], acc, hne, _ => by
    simp [iterGo, List.isEmpty_iff, hne]
  | (line, lvl) :: pairs, acc, hne, h => by
    have hrec := iterGo_all_extend pairs (acc ++ line)
      (by simp [List.append_eq_nil, hne])
      (fun p hp => h p (by simp [hp]))
    by_cases hlvl : lvl = 0
    · by_cases hdec : (acc.isEmpty || is_decorator acc) = true
      · simp [iterGo, hlvl, hdec, hrec]
      · have hcont := h (line, lvl) (by simp) hlvl
        simp [iterGo, hlvl, hdec, hcont, hrec]
    · simp [iterGo, hlvl, hrec]

theorem iterGo_acc_prefix : ∀ (pairs : List (List Tok × Int)) (acc : List Tok),
    acc ≠ [] → ∃ G ∈ iterGo pairs acc, ∃ w, G = acc ++ w
  | [], acc, hne => ⟨acc, by simp [iterGo, List.isEmpty_iff, hne], [], by simp⟩
  | (line, lvl) :: pairs, acc, hne => by
    by_cases hlvl : lvl = 0
    · by_cases hdec : (acc.isEmpty || is_decorator acc) = true
      · obtain ⟨G, hG, w, hw⟩ := iterGo_acc_prefix pairs (acc ++ line)
          (by simp [List.append_eq_nil, hne])
        exact ⟨G, by simpa [iterGo, hlvl, hdec] using hG, line ++ w, by simp [hw]⟩
      · by_cases hcont : _is_continued_block line = true
        · obtain ⟨G, hG, w, hw⟩ := iterGo_acc_prefix pairs (acc ++ line)
            (by simp [List.append_eq_nil, hne])
          exact ⟨G, by simpa [iterGo, hlvl, hdec, hcont] using hG, line ++ w, by simp [hw]⟩
        · exact ⟨acc, by simp [iterGo, hlvl, hdec, hcont], [], by simp⟩
    · obtain ⟨G, hG, w, hw⟩ := iterGo_acc_prefix pairs (acc ++ line)
        (by simp [List.append_eq_nil, hne])
      exact ⟨G, by simpa [iterGo, hlvl] using hG, line ++ w, by simp [hw]⟩

theorem is_decorator_append (x lj : List Tok) (h : lj ≠ []) :
    is_decorator (x ++ lj) = is_decorator lj := by
  unfold is_decorator
  rw [List.getLast?_append_of_ne_nil x h]

theorem iterGo_after_decorator (rest : List (List Tok × Int)) (acc lj lj1 : List Tok)
    (vj1 : Int) (hne : lj ≠ []) (hdec : is_decorator lj = true)
    (hacc : ∃ v, acc = v ++ lj) :
    ∃ G ∈ iterGo ((lj1, vj1) :: rest) acc, ∃ v w, G = v ++ (lj ++ (lj1 ++ w)) := by
  obtain ⟨v, hv⟩ := hacc
  have haccne : acc ≠ [] := by
    rw [hv]
    simp [List.append_eq_nil, hne]
  have hdec2 : is_decorator acc = true := by
    rw [hv, is_decorator_append v lj hne]
    exact hdec
  have hcond : (acc.isEmpty || is_decorator acc) = true := by simp [hdec2]
  obtain ⟨G, hG, w, hw⟩ := iterGo_acc_prefix rest (acc ++ lj1)
    (by simp [List.append_eq_nil, haccne])
  by_cases hlvl : vj1 = 0
  · exact ⟨G, by simpa [iterGo, hlvl, hcond] using hG, v, w,
      by rw [hw, hv]; simp⟩
  · exact ⟨G, by simpa [iterGo, hlvl] using hG, v, w,
      by rw [hw, hv]; simp⟩

theorem iterGo_decorator : ∀ (u : List (List Tok × Int)) (acc : List Tok)
    (lj lj1 : List Tok) (vj vj1 : Int) (rest : List (List Tok × Int)),
    lj ≠ [] → is_decorator lj = true →
    ∃ G ∈ iterGo (u ++ (lj, vj) :: (lj1, vj1) :: rest) acc,
      ∃ v w, G = v ++ (lj ++ (lj1 ++ w))
  | [], acc, lj, lj1, vj, vj1, rest, hne, hdec => by
    by_cases hlvl : vj = 0
    · by_cases hc1 : (acc.isEmpty || is_decorator acc) = true
      · obtain ⟨G, hG, v, w, hw⟩ :=
          iterGo_after_decorator rest (acc ++ lj) lj lj1 vj1 hne hdec ⟨acc, rfl⟩
        exact ⟨G, by simpa [iterGo, hlvl, hc1] using hG, v, w, hw⟩
      · by_cases hc2 : _is_continued_block lj = true
        · obtain ⟨G, hG, v, w, hw⟩ :=
            iterGo_after_decorator rest (acc ++ lj) lj lj1 vj1 hne hdec ⟨acc, rfl⟩
          exact ⟨G, by simpa [iterGo, hlvl, hc1, hc2] using hG, v, w, hw⟩
        · obtain ⟨G, hG, v, w, hw⟩ :=
            iterGo_after_decorator rest lj lj lj1 vj1 hne hdec ⟨[], by simp⟩
          refine ⟨G, ?_, v, w, hw⟩
          simp only [List.nil_append, iterGo, hlvl, hc1, hc2]
          exact List.mem_cons_of_mem _ hG
    · obtain ⟨G, hG, v, w, hw⟩ :=
        iterGo_after_decorator rest (acc ++ lj) lj lj1 vj1 hne hdec ⟨acc, rfl⟩
      exact ⟨G, by simpa [iterGo, hlvl] using hG, v, w, hw⟩
  | (l0, v0) :: u, acc, lj, lj1, vj, vj1, rest, hne, hdec => by
    by_cases hlvl : v0 = 0
    · by_cases hc1 : (acc.isEmpty || is_decorator acc) = true
      · obtain ⟨G, hG, v, w, hw⟩ :=
          iterGo_decorator u (acc ++ l0) lj lj1 vj vj1 rest hne hdec
        exact ⟨G, by simpa [iterGo, hlvl, hc1] using hG, v, w, hw⟩
      · by_cases hc2 : _is_continued_block l0 = true
        · obtain ⟨G, hG, v, w, hw⟩ :=
            iterGo_decorator u (acc ++ l0) lj lj1 vj vj1 rest hne hdec
          exact ⟨G, by simpa [iterGo, hlvl, hc1, hc2] using hG, v, w, hw⟩
        · obtain ⟨G, hG, v, w, hw⟩ :=
            iterGo_decorator u l0 lj lj1 vj vj1 rest hne hdec
          refine ⟨G, ?_, v, w, hw⟩
          simp only [List.cons_append, iterGo, hlvl, hc1, hc2]
          exact List.mem_cons_of_mem _ hG
    · obtain ⟨G, hG, v, w, hw⟩ :=
        iterGo_decorator u (acc ++ l0) lj lj1 vj vj1 rest hne hdec
      exact ⟨G, by simpa [iterGo, hlvl] using hG, v, w, hw⟩

/-! ### Claim C2 -/

/-- C2: a source whose logical lines after the first are each either at
positive accumulated indentation or a continuation clause (elif, else,
except, finally) yields exactly one group holding the whole chain; and a
decorator logical line is always placed in the same group as the logical
line immediately following it. -/
theorem grouping_chains_and_decorators :
    (∀ (ts : List Tok) (l0 : List Tok) (v0 : Int) (prest : List (List Tok × Int)),
      List.zip (_generate_logical_lines ts)
          (accumulateInt 0 ((_generate_logical_lines ts).map _evaluate_indent_variation)) =
        (l0, v0) :: prest →
      l0 ≠ [] →
      (∀ p ∈ prest, p.2 = 0 → _is_continued_block p.1 = true) →
      iterate_groups_from_source ts = [(l0 :: prest.map Prod.fst).flatten]) ∧
    (∀ (ts : List Tok) (u : List (List Tok × Int)) (lj lj1 : List Tok) (vj vj1 : Int)
        (rest : List (List Tok × Int)),
      List.zip (_generate_logical_lines ts)
          (accumulateInt 0 ((_generate_logical_lines ts).map _evaluate_indent_variation)) =
        u ++ (lj, vj) :: (lj1, vj1) :: rest →
      lj ≠ [] → is_decorator lj = true →
      ∃ G ∈ iterate_groups_from_source ts, ∃ v w, G = v ++ (lj ++ (lj1 ++ w))) := by
  constructor
  · intro ts l0 v0 prest hzip hne h
    rw [iterate_groups_from_source, hzip]
    have hstep : iterGo ((l0, v0) :: prest) [] = iterGo prest l0 := by
      by_cases hlvl : v0 = 0 <;> simp [iterGo, hlvl]
    rw [hstep, iterGo_all_extend prest l0 hne h]
    simp
  · intro ts u lj lj1 vj vj1 rest hzip hne hdec
    rw [iterate_groups_from_source, hzip]
    exact iterGo_decorator u [] lj lj1 vj vj1 rest hne hdec

/-- Witness for C2: the if/elif/else chain collapses to one group, and the
decorator line of `@deco` / `def f():` / `pass` shares its group with the
definition line. -/
theorem grouping_chains_and_decorators_witness :
    iterate_groups_from_source chainIfElifElse = [chainIfElifElse] ∧
    (∃ G ∈ iterate_groups_from_source decoratedDef,
      ∃ v w, G = v ++ (decoratedDef.take 3 ++ ((decoratedDef.drop 3).take 6 ++ w))) := by
  constructor
  · exact (grouping_chains_and_decorators.1 chainIfElifElse
      (chainIfElifElse.take 4) 0
      [((chainIfElifElse.drop 4).take 3, 1),
       ((chainIfElifElse.drop 7).take 5, 0),
       ((chainIfElifElse.drop 12).take 3, 1),
       ((chainIfElifElse.drop 15).take 4, 0),
       (chainIfElifElse.drop 19, 1)]
      (by decide) (by decide) (by decide)).trans (by decide)
  · exact grouping_chains_and_decorators.2 decoratedDef []
      (decoratedDef.take 3) ((decoratedDef.drop 3).take 6) 0 0
      [(decoratedDef.drop 9, 1)] (by decide) (by decide) (by decide)

theorem mem_of_getLast_eq {α : Type} {l : List α} {a : α} (h : l.getLast? = some a) :
    a ∈ l := by
  rcases List.mem_getLast?_eq_getLast (show a ∈ l.getLast? by rw [h]; rfl) with ⟨hne, heq⟩
  rw [heq]
  exact List.getLast_mem hne

theorem runsByAux_flatten (p : Tok → Bool) : ∀ (ts : List Tok) (k : Bool) (cur : List Tok),
    (runsByAux p k cur ts).flatten = cur.reverse ++ ts
  | [], _, cur => by simp [runsByAux]
  | t :: ts, k, cur => by
    by_cases htk : p t = k
    · rw [runsByAux, if_pos htk, runsByAux_flatten p ts k (t :: cur)]
      simp
    · rw [runsByAux, if_neg htk]
      simp [runsByAux_flatten p ts (p t) [t]]

theorem runsBy_flatten (p : Tok → Bool) : ∀ ts : List Tok, (runsBy p ts).flatten = ts
  | [] => rfl
  | t :: ts => by simp [runsBy, runsByAux_flatten]

theorem runsByAux_runs (p : Tok → Bool) : ∀ (ts : List Tok) (k : Bool) (cur : List Tok),
    cur ≠ [] → (∀ x ∈ cur, p x = k) → Runs p k (runsByAux p k cur ts)
  | [], k, cur, hne, hkey => by
    rw [runsByAux]
    exact Runs.cons k cur.reverse [] (by simp [hne])
      (fun x hx => hkey x (by simpa using hx)) (Runs.nil _)
  | t :: ts, k, cur, hne, hkey => by
    by_cases htk : p t = k
    · rw [runsByAux, if_pos htk]
      refine runsByAux_runs p ts k (t :: cur) (by simp) ?_
      intro x hx
      rcases List.mem_cons.mp hx with rfl | hx
      · exact htk
      · exact hkey x hx
    · rw [runsByAux, if_neg htk]
      refine Runs.cons k cur.reverse _ (by simp [hne])
        (fun x hx => hkey x (by simpa using hx)) ?_
      have hptk : p t = !k := by
        cases hk : p t <;> cases k <;> simp_all
      rw [hptk]
      exact runsByAux_runs p ts (!k) [t] (by simp)
        (fun x hx => by rw [List.mem_singleton.mp hx, hptk])

theorem runsBy_runs (p : Tok → Bool) (t : Tok) (ts : List Tok) :
    Runs p (p t) (runsBy p (t :: ts)) := by
  simp only [runsBy]
  exact runsByAux_runs p ts (p t) [t] (by simp) (by simp)

theorem zip_evens_odds : ∀ rs : List (List Tok),
    (List.zip (evens rs) (odds rs)).map (fun q => q.1 ++ q.2) = pairUp rs
  | [] => rfl
  | [_] => rfl
  | a :: b :: rs => by
    simp only [evens, odds, pairUp, List.zip_cons_cons, List.map_cons]
    rw [zip_evens_odds rs]

theorem generate_lines_eq_pairUp (ts : List Tok) :
    _generate_logical_lines ts = pairUp (runsBy is_complete_line ts) := by
  rw [_generate_logical_lines]
  exact zip_evens_odds _

theorem pairUp_line_end (p : Tok → Bool) : ∀ (rs : List (List Tok)), Runs p false rs →
    ∀ l ∈ pairUp rs, l ≠ [] ∧ ∀ x, l.getLast? = some x → p x = true
  | [], _, l, hl => by simp [pairUp] at hl
  | [_], _, l, hl => by simp [pairUp] at hl
  | r1 :: r2 :: rs, h, l, hl => by
    rcases h with _ | ⟨_, _, _, hne1, hkey1, h2⟩
    rcases h2 with _ | ⟨_, _, _, hne2, hkey2, h3⟩
    rcases List.mem_cons.mp hl with rfl | hl2
    · refine ⟨by simp [hne2], fun x hx => ?_⟩
      rw [List.getLast?_append_of_ne_nil r1 hne2] at hx
      exact hkey2 x (mem_of_getLast_eq hx)
    · exact pairUp_line_end p rs h3 l hl2

theorem single_run_last_false (p : Tok → Bool) (r : List Tok) (hne : r ≠ [])
    (hkey : ∀ t ∈ r, p t = false)
    (hlast : ∀ x, ([r] : List (List Tok)).flatten.getLast? = some x → p x = true) :
    False := by
  obtain ⟨x, hx⟩ := Option.isSome_iff_exists.mp (List.getLast?_isSome.mpr hne)
  have h1 : p x = false := hkey x (mem_of_getLast_eq hx)
  have h2 : p x = true := hlast x (by simpa using hx)
  rw [h1] at h2
  exact Bool.false_ne_true h2

theorem pairUp_flatten_of_last_true (p : Tok → Bool) : ∀ (rs : List (List Tok)),
    Runs p false rs →
    (∀ x, rs.flatten.getLast? = some x → p x = true) →
    (pairUp rs).flatten = rs.flatten
  | [], _, _ => rfl
  | [r], h, hlast => by
    rcases h with _ | ⟨_, _, _, hne, hkey, _⟩
    exact absurd hlast (fun hl => single_run_last_false p r hne hkey hl)
  | r1 :: r2 :: rs, h, hlast => by
    rcases h with _ | ⟨_, _, _, hne1, hkey1, h2⟩
    rcases h2 with _ | ⟨_, _, _, hne2, hkey2, h3⟩
    cases rs with
    | nil => simp [pairUp]
    | cons r3 rs2 =>
      have hr3ne : r3 ≠ [] := by
        rcases h3 with _ | ⟨_, _, _, hne3, _, _⟩
        exact hne3
      have hflne : (r3 :: rs2).flatten ≠ [] := by
        simp only [List.flatten_cons]
        simp [List.append_eq_nil, hr3ne]
      have hYne : r3 ++ rs2.flatten ≠ [] := by simpa using hflne
      have hXne : r2 ++ (r3 ++ rs2.flatten) ≠ [] :=
        fun hcon => hYne (List.append_eq_nil.mp hcon).2
      have ih := pairUp_flatten_of_last_true p (r3 :: rs2) h3 (fun x hx => hlast x (by
        simp only [List.flatten_cons] at hx ⊢
        rw [List.getLast?_append_of_ne_nil r1 hXne, List.getLast?_append_of_ne_nil r2 hYne]
        exact hx))
      simp only [pairUp, List.flatten_cons] at ih ⊢
      rw [ih]
      simp [List.append_assoc]

theorem runs_even_of_last_true (p : Tok → Bool) : ∀ (rs : List (List Tok)),
    Runs p false rs →
    (∀ x, rs.flatten.getLast? = some x → p x = true) →
    rs.length % 2 = 0
  | [], _, _ => rfl
  | [r], h, hlast => by
    rcases h with _ | ⟨_, _, _, hne, hkey, _⟩
    exact absurd hlast (fun hl => single_run_last_false p r hne hkey hl)
  | r1 :: r2 :: rs, h, hlast => by
    rcases h with _ | ⟨_, _, _, hne1, hkey1, h2⟩
    rcases h2 with _ | ⟨_, _, _, hne2, hkey2, h3⟩
    cases rs with
    | nil => simp
    | cons r3 rs2 =>
      have hr3ne : r3 ≠ [] := by
        rcases h3 with _ | ⟨_, _, _, hne3, _, _⟩
        exact hne3
      have hflne : (r3 :: rs2).flatten ≠ [] := by
        simp only [List.flatten_cons]
        simp [List.append_eq_nil, hr3ne]
      have hYne : r3 ++ rs2.flatten ≠ [] := by simpa using hflne
      have hXne : r2 ++ (r3 ++ rs2.flatten) ≠ [] :=
        fun hcon => hYne (List.append_eq_nil.mp hcon).2
      have ih := runs_even_of_last_true p (r3 :: rs2) h3 (fun x hx => hlast x (by
        simp only [List.flatten_cons] at hx ⊢
        rw [List.getLast?_append_of_ne_nil r1 hXne, List.getLast?_append_of_ne_nil r2 hYne]
        exact hx))
      simp only [List.length_cons] at ih ⊢
      omega

theorem pairUp_append_even : ∀ (rs : List (List Tok)) (t : List Tok),
    rs.length % 2 = 0 → pairUp (rs ++ [t]) = pairUp rs
  | [], _, _ => rfl
  | [_], _, h => by simp at h
  | r1 :: r2 :: rs, t, h => by
    have h2 : rs.length % 2 = 0 := by
      simp only [List.length_cons] at h
      omega
    simp only [List.cons_append, pairUp, List.append_eq]
    rw [pairUp_append_even rs t h2]

theorem runsByAux_allSame (p : Tok → Bool) : ∀ (l cur : List Tok) (k : Bool),
    (∀ x ∈ l, p x = k) → runsByAux p k cur l = [cur.reverse ++ l]
  | [], cur, _, _ => by simp [runsByAux]
  | x :: l, cur, k, h => by
    have hx : p x = k := h x (by simp)
    rw [runsByAux, if_pos hx,
      runsByAux_allSame p l (x :: cur) k (fun y hy => h y (by simp [hy]))]
    simp

theorem runsByAux_append_tail (p : Tok → Bool) (tl : List Tok) (htl : tl ≠ [])
    (htlk : ∀ x ∈ tl, p x = false) :
    ∀ (ts : List Tok) (k : Bool) (cur : List Tok),
      (ts = [] → k = true) →
      (∀ x, ts.getLast? = some x → p x = true) →
      runsByAux p k cur (ts ++ tl) = runsByAux p k cur ts ++ [tl]
  | [], k, cur, hk, _ => by
    have hk1 : k = true := hk rfl
    subst hk1
    cases tl with
    | nil => exact absurd rfl htl
    | cons t0 tl2 =>
      have ht0 : p t0 = false := htlk t0 (by simp)
      have hneq : ¬ (p t0 = true) := by simp [ht0]
      simp only [List.nil_append, runsByAux]
      rw [if_neg hneq, runsByAux_allSame p tl2 [t0] (p t0)
        (fun y hy => by rw [htlk y (by simp [hy]), ht0])]
      simp
  | t :: ts, k, cur, _, hlast => by
    by_cases htk : p t = k
    · rw [List.cons_append, runsByAux, if_pos htk, runsByAux, if_pos htk]
      refine runsByAux_append_tail p tl htl htlk ts k (t :: cur) ?_ ?_
      · intro hts
        subst hts
        rw [← htk]
        exact hlast t (by simp)
      · intro x hx
        refine hlast x ?_
        cases ts with
        | nil => simp at hx
        | cons t2 ts2 => rw [List.getLast?_cons_cons]; exact hx
    · rw [List.cons_append, runsByAux, if_neg htk, runsByAux, if_neg htk]
      rw [runsByAux_append_tail p tl htl htlk ts (p t) [t] ?_ ?_]
      · simp
      · intro hts
        subst hts
        exact hlast t (by simp)
      · intro x hx
        refine hlast x ?_
        cases ts with
        | nil => simp at hx
        | cons t2 ts2 => rw [List.getLast?_cons_cons]; exact hx

theorem runsBy_append_tail (p : Tok → Bool) (s tl : List Tok) (hs : s ≠ [])
    (hlast : ∀ x, s.getLast? = some x → p x = true)
    (htl : tl ≠ []) (htlk : ∀ x ∈ tl, p x = false) :
    runsBy p (s ++ tl) = runsBy p s ++ [tl] := by
  cases s with
  | nil => exact absurd rfl hs
  | cons t ts =>
    rw [List.cons_append]
    simp only [runsBy]
    refine runsByAux_append_tail p tl htl htlk ts (p t) [t] ?_ ?_
    · intro hts
      subst hts
      exact hlast t (by simp)
    · intro x hx
      refine hlast x ?_
      cases ts with
      | nil => simp at hx
      | cons t2 ts2 => rw [List.getLast?_cons_cons]; exact hx

theorem lines_flatten_body (body : List Tok) (hne : body ≠ [])
    (hhead : ∀ x, body.head? = some x → is_complete_line x = false)
    (hlast : ∀ x, body.getLast? = some x → is_complete_line x = true) :
    (_generate_logical_lines body).flatten = body := by
  cases body with
  | nil => exact absurd rfl hne
  | cons t ts =>
    have hrs := runsBy_runs is_complete_line t ts
    rw [hhead t rfl] at hrs
    rw [generate_lines_eq_pairUp,
      pairUp_flatten_of_last_true _ _ hrs
        (fun x hx => hlast x (by rwa [runsBy_flatten] at hx))]
    exact runsBy_flatten _ _

theorem lines_append_tail (s tl : List Tok) (htl : tl ≠ [])
    (htlk : ∀ x ∈ tl, is_complete_line x = false)
    (hhead : ∀ x, s.head? = some x → is_complete_line x = false)
    (hlast : ∀ x, s.getLast? = some x → is_complete_line x = true) :
    _generate_logical_lines (s ++ tl) = _generate_logical_lines s := by
  cases s with
  | nil =>
    cases tl with
    | nil => rfl
    | cons t0 tl2 =>
      rw [generate_lines_eq_pairUp, generate_lines_eq_pairUp]
      simp only [List.nil_append, runsBy]
      rw [runsByAux_allSame _ tl2 [t0] (is_complete_line t0)
        (fun y hy => by rw [htlk y (by simp [hy]), htlk t0 (by simp)])]
      rfl
  | cons t ts =>
    rw [generate_lines_eq_pairUp, generate_lines_eq_pairUp,
      runsBy_append_tail _ (t :: ts) tl (by simp) hlast htl htlk]
    have hrs := runsBy_runs is_complete_line t ts
    rw [hhead t rfl] at hrs
    exact pairUp_append_even _ tl (runs_even_of_last_true _ _ hrs
      (fun x hx => hlast x (by rwa [runsBy_flatten] at hx)))

/-! ### Claim C10 -/

/-- C10: a trailing run of tokens not followed by a logical-newline token
(e.g. a final statement without a trailing newline) is assigned to no
logical line by `_generate_logical_lines` and hence lands in no group: the
lines and the groups of the extended stream equal those of the stream
without the trailing run. -/
theorem trailing_tokens_dropped (s t : List Tok)
    (ht : t ≠ []) (htn : ∀ x ∈ t, is_complete_line x = false)
    (hhead : ∀ x, s.head? = some x → is_complete_line x = false)
    (hlast : ∀ x, s.getLast? = some x → is_complete_line x = true) :
    _generate_logical_lines (s ++ t) = _generate_logical_lines s ∧
    iterate_groups_from_source (s ++ t) = iterate_groups_from_source s := by
  have hl := lines_append_tail s t ht htn hhead hlast
  refine ⟨hl, ?_⟩
  rw [iterate_groups_from_source, iterate_groups_from_source, hl]

/-- Witness for C10: `a = 5` followed by an unterminated `b` is grouped
exactly like `a = 5` alone. -/
theorem trailing_tokens_dropped_witness :
    _generate_logical_lines (lineAssignA ++ [mkTok .NAME "b" 2 0 2 1 "b"]) =
      _generate_logical_lines lineAssignA ∧
    iterate_groups_from_source (lineAssignA ++ [mkTok .NAME "b" 2 0 2 1 "b"]) =
      iterate_groups_from_source lineAssignA :=
  trailing_tokens_dropped lineAssignA [mkTok .NAME "b" 2 0 2 1 "b"]
    (by decide) (by decide)
    (fun x hx => by
      rw [show lineAssignA.head? = some (mkTok .NAME "a" 1 0 1 1 "a = 5\n") from rfl,
        Option.some_inj] at hx
      rw [← hx]
      rfl)
    (fun x hx => by
      rw [show lineAssignA.getLast? = some (mkTok .NEWLINE "\n" 1 5 1 6 "a = 5\n") from rfl,
        Option.some_inj] at hx
      rw [← hx]
      rfl)

theorem extractGo_eq_spec : ∀ (ls : List (List Tok)) (plOpt : Option (List Tok)),
    extractGo (plOpt.map (fun l => (l, decide (_is_docstring l ≠ []))))
      (ls.map (fun l => (l, decide (_is_docstring l ≠ [])))) =
    (acceptedGo plOpt ls).mapM (fun p => do
      let pre ← strOfTokens p.1
      let s2 ← strOfTokens p.2
      let body ← pyEvalExpr s2
      return renderWithEq _equalize_docstring pre body)
  | [], plOpt => by cases plOpt <;> rfl
  | l :: ls, plOpt => by
    have ih := extractGo_eq_spec ls (some l)
    simp only [Option.map_some'] at ih
    cases plOpt with
    | none =>
      simp only [List.map_cons, Option.map_none', extractGo, acceptedGo]
      exact ih
    | some pl =>
      simp only [List.map_cons, Option.map_some', extractGo, acceptedGo]
      by_cases h1 : _is_docstring l ≠ []
      · by_cases h2 : _is_docstring pl = []
        · have hb : (decide (_is_docstring l ≠ []) && ! decide (_is_docstring pl ≠ [])) =
              true := by simp [h1, h2]
          rw [hb]
          by_cases h3 : _is_block_start pl = true
          · rw [if_pos rfl, if_pos h3, if_pos ⟨h1, h2, h3⟩, List.singleton_append,
              List.mapM_cons]
            cases hpre : strOfTokens pl with
            | none => simp [hpre]
            | some pre =>
              cases hsl : strOfTokens l with
              | none => simp [hpre, hsl]
              | some s2 =>
                cases hev : pyEvalExpr s2 with
                | none => simp [hpre, hsl, hev]
                | some body =>
                  rw [ih]
                  simp only [hpre, hsl, hev, Option.some_bind, Option.bind_eq_bind,
                    renderDocstring]
                  cases (acceptedGo (some l) ls).mapM (fun p => do
                      let pre ← strOfTokens p.1
                      let s2 ← strOfTokens p.2
                      let body ← pyEvalExpr s2
                      return renderWithEq _equalize_docstring pre body) with
                  | none => rfl
                  | some ds => rfl
          · rw [if_pos rfl, if_neg h3, if_neg (by
              intro hcon
              exact h3 hcon.2.2), List.nil_append]
            exact ih
        · have hb : (decide (_is_docstring l ≠ []) && ! decide (_is_docstring pl ≠ [])) =
              false := by simp [h2]
          rw [hb]
          rw [if_neg (by simp), if_neg (by
            intro hcon
            exact h2 hcon.2.1), List.nil_append]
          exact ih
      · have hb : (decide (_is_docstring l ≠ []) && ! decide (_is_docstring pl ≠ [])) =
            false := by simp [h1]
        rw [hb]
        rw [if_neg (by simp), if_neg (by
          intro hcon
          exact h1 hcon.1), List.nil_append]
        exact ih

/-! ### Claim C7 -/

/-- C7 as stated is false on the dedent rule: for the group
`def f():` / `"""a` / `b` / `  c"""` / `pass` the docstring body has
continuation indentations 0 and 2, the code strips the minimum (0,
leaving the body unchanged) while the claim's "minimum non-zero
indentation" (2) would strip two characters from each non-blank
continuation line. -/
theorem nested_docstring_counterexample :
    extract_docstrings groupDefDocstring =
      some [(".. note::\n\n    .. code:: python\n\n        def f():\n\n    a\n    b\n      c\n\n").data] ∧
    extractSpecWith equalizeClaimNonzero groupDefDocstring =
      some [(".. note::\n\n    .. code:: python\n\n        def f():\n\n    a\n    \n    c\n\n").data] ∧
    extract_docstrings groupDefDocstring ≠
      extractSpecWith equalizeClaimNonzero groupDefDocstring := by
  refine ⟨by decide, by decide, by decide⟩

/-- C7 amended: `extract_docstrings` accepts a nested docstring at line `i`
exactly when line `i` classifies as a docstring, `i` is not the first line,
line `i-1` does not classify as a docstring, and line `i-1` is
block-opening; the rendered annotation pairs the opening line's
reconstructed source under the code marker with the docstring body dedented
by the minimum indentation (zero allowed, not "non-zero") over the
non-blank continuation lines, blank lines and the first line untouched. -/
theorem nested_docstring_extraction (tokens : List Tok) :
    extract_docstrings tokens = extractSpecWith equalizeAmended tokens := by
  rw [extract_docstrings, extractSpecWith]
  exact extractGo_eq_spec (_generate_logical_lines tokens) none

theorem untokLoop_cons_of_ok (t : Tok) (ts : List Tok) (st : Nat × Nat)
    (hrow : t.startPos.1 = st.1) (hcol : st.2 ≤ t.startPos.2)
    (hend : t.type ≠ TokType.ENDMARKER) (henc : t.type ≠ TokType.ENCODING) :
    untokLoop st (t :: ts) =
      (untokLoop (advanceTok st t) ts).map
        (fun q => (List.replicate (t.startPos.2 - st.2) ' ' ++ t.string ++ q.1, q.2)) := by
  have haw : add_whitespace st t.startPos =
      some (List.replicate (t.startPos.2 - st.2) ' ') := by
    rw [add_whitespace, if_neg (by
      push_neg
      exact ⟨by omega, fun _ => by omega⟩)]
    simp [hrow]
  simp only [untokLoop, if_neg henc, if_neg hend, haw]
  cases untokLoop (advanceTok st t) ts with
  | none => rfl
  | some q => rfl

theorem untokLoop_of_rowColOk : ∀ (ts : List Tok) (st : Nat × Nat),
    rowColOk st ts = true →
    ∃ out, untokLoop st ts = some (out, ts.foldl advanceTok st)
  | [], _, _ => ⟨[], rfl⟩
  | t :: ts, st, h => by
    simp only [rowColOk, Bool.and_eq_true, decide_eq_true_eq] at h
    obtain ⟨⟨⟨⟨hrow, hcol⟩, hend⟩, henc⟩, hrest⟩ := h
    obtain ⟨out, hout⟩ := untokLoop_of_rowColOk ts (advanceTok st t) hrest
    refine ⟨List.replicate (t.startPos.2 - st.2) ' ' ++ t.string ++ out, ?_⟩
    rw [untokLoop_cons_of_ok t ts st hrow hcol hend henc, hout]
    rfl

theorem rowColOk_append : ∀ (A B : List Tok) (st : Nat × Nat),
    rowColOk st (A ++ B) = (rowColOk st A && rowColOk (A.foldl advanceTok st) B)
  | [], B, st => by simp [rowColOk]
  | t :: A, B, st => by
    simp only [List.cons_append, rowColOk, List.append_eq,
      rowColOk_append A B (advanceTok st t), List.foldl_cons, Bool.and_assoc]

theorem rowColOk_no_endmarker : ∀ (ts : List Tok) (st : Nat × Nat),
    rowColOk st ts = true → ∀ t ∈ ts, t.type ≠ TokType.ENDMARKER
  | [], _, _, t, ht => by simp at ht
  | t0 :: ts, st, h, t, ht => by
    simp only [rowColOk, Bool.and_eq_true, decide_eq_true_eq] at h
    rcases List.mem_cons.mp ht with rfl | ht2
    · exact h.1.1.2
    · exact rowColOk_no_endmarker ts (advanceTok st t0) h.2 t ht2

theorem untokLoop_append : ∀ (A B : List Tok) (st : Nat × Nat),
    (∀ t ∈ A, t.type ≠ TokType.ENDMARKER) →
    untokLoop st (A ++ B) =
      (untokLoop st A).bind (fun p => (untokLoop p.2 B).map (fun q => (p.1 ++ q.1, q.2)))
  | [], B, st, _ => by
    simp only [List.nil_append, untokLoop, Option.some_bind]
    cases hb : untokLoop st B with
    | none => rfl
    | some q => simp
  | t :: A, B, st, h => by
    by_cases henc : t.type = TokType.ENCODING
    · have ih := untokLoop_append A B st (fun x hx => h x (by simp [hx]))
      simp only [List.cons_append, untokLoop, if_pos henc, List.append_eq]
      exact ih
    · have ih := untokLoop_append A B (advanceTok st t) (fun x hx => h x (by simp [hx]))
      have hend : t.type ≠ TokType.ENDMARKER := h t (by simp)
      simp only [List.cons_append, untokLoop, if_neg henc, if_neg hend, List.append_eq]
      cases haw : add_whitespace st t.startPos with
      | none => rfl
      | some pad =>
        rw [ih]
        cases ha : untokLoop (advanceTok st t) A with
        | none => rfl
        | some p =>
          simp only [Option.some_bind]
          cases hb : untokLoop p.2 B with
          | none => simp
          | some q => simp [List.append_assoc]

theorem untokLoop_tailZero : ∀ (tl : List Tok) (st : Nat × Nat),
    tailZero st tl = true → untokLoop st tl = some ([], st)
  | [], _, _ => rfl
  | t :: tl, st, h => by
    by_cases hend : t.type = TokType.ENDMARKER
    · have henc : t.type ≠ TokType.ENCODING := by rw [hend]; intro hc; cases hc
      simp only [untokLoop, if_neg henc, if_pos hend]
    · rw [tailZero, if_neg hend] at h
      simp only [Bool.and_eq_true, decide_eq_true_eq] at h
      obtain ⟨⟨⟨⟨⟨⟨hstr, hstart⟩, hendp⟩, hnl1⟩, hnl2⟩, henc⟩, hrest⟩ := h
      have hloop := untokLoop_tailZero tl st hrest
      have hadv : advanceTok st t = st := by
        rw [advanceTok, if_neg (by
          push_neg
          exact ⟨hnl1, hnl2⟩), hendp]
      rw [untokLoop_cons_of_ok t tl st (by rw [hstart]) (by rw [hstart]) hend henc, hadv,
        hloop]
      simp [hstr, hstart]

theorem untokLoop_shift (t : Tok) (ts : List Tok) (r : Nat) (hr : 1 ≤ r)
    (hrow : t.startPos.1 = r)
    (hend : t.type ≠ TokType.ENDMARKER) (henc : t.type ≠ TokType.ENCODING) :
    untokLoop (1, 0) (t :: ts) =
      (untokLoop (r, 0) (t :: ts)).map
        (fun q => (backslashPad (r - 1) ++ q.1, q.2)) := by
  have haw1 : add_whitespace (1, 0) t.startPos =
      some (backslashPad (r - 1) ++ List.replicate t.startPos.2 ' ') := by
    rw [add_whitespace, if_neg (by
      push_neg
      refine ⟨by omega, fun h1 => by omega⟩)]
    simp [hrow, backslashPad, ite_self]
  rw [untokLoop_cons_of_ok t ts (r, 0) hrow (by omega) hend henc]
  simp only [untokLoop, if_neg henc, if_neg hend, haw1]
  have hadv : advanceTok (1, 0) t = advanceTok (r, 0) t := rfl
  rw [hadv]
  cases untokLoop (advanceTok (r, 0) t) ts with
  | none => rfl
  | some q => simp [List.append_assoc]

theorem untokLoop_head_char : ∀ (B : List Tok) (st : Nat × Nat) (out : Chars)
    (stF : Nat × Nat),
    rowColOk st B = true → noBackslashText B = true →
    untokLoop st B = some (out, stF) → ∀ c, out.head? = some c → c ≠ '\\'
  | [], _, out, _, _, _, hloop, c, hc => by
    simp only [untokLoop, Option.some_inj, Prod.mk.injEq] at hloop
    rw [← hloop.1] at hc
    simp at hc
  | t :: B, st, out, stF, hrc, hbs, hloop, c, hc => by
    simp only [rowColOk, Bool.and_eq_true, decide_eq_true_eq] at hrc
    obtain ⟨⟨⟨⟨hrow, hcol⟩, hend⟩, henc⟩, hrest⟩ := hrc
    simp only [noBackslashText, List.all_cons, Bool.and_eq_true, decide_eq_true_eq] at hbs
    rw [untokLoop_cons_of_ok t B st hrow hcol hend henc] at hloop
    cases hq : untokLoop (advanceTok st t) B with
    | none => rw [hq] at hloop; cases hloop
    | some q =>
      rw [hq] at hloop
      injection hloop with h1
      have hout : out = List.replicate (t.startPos.2 - st.2) ' ' ++ t.string ++ q.1 :=
        ((Prod.mk.injEq _ _ _ _).mp h1).1.symm
      subst hout
      rcases hn : t.startPos.2 - st.2 with _ | n
      · rw [hn] at hc
        simp only [List.replicate_zero, List.nil_append] at hc
        cases hs : t.string with
        | nil =>
          rw [hs] at hc
          simp only [List.nil_append] at hc
          exact untokLoop_head_char B (advanceTok st t) q.1 q.2 hrest
            (by simpa [noBackslashText] using hbs.2) (by rw [hq]) c hc
        | cons c0 cs =>
          rw [hs] at hc
          simp only [List.cons_append, List.head?_cons, Option.some_inj] at hc
          subst hc
          have := hbs.1
          rw [hs] at this
          simpa using this
      · rw [hn] at hc
        simp only [List.replicate_succ, List.cons_append, List.head?_cons,
          Option.some_inj] at hc
        subst hc
        decide

theorem splitNlAux_join : ∀ s : Chars, joinNl ((splitNlAux s).1 :: (splitNlAux s).2) = s
  | [] => rfl
  | c :: s => by
    have ih := splitNlAux_join s
    by_cases hc : c = '\n'
    · subst hc
      simp only [splitNlAux, if_pos rfl]
      simpa [joinNl] using ih
    · simp only [splitNlAux, if_neg hc]
      cases hr : (splitNlAux s).2 with
      | nil =>
        rw [hr] at ih
        simp only [joinNl] at ih ⊢
        rw [ih]
      | cons a as =>
        rw [hr] at ih
        simp only [joinNl] at ih ⊢
        rw [List.cons_append, ih]

theorem joinNl_splitNl (s : Chars) : joinNl (splitNl s) = s :=
  splitNlAux_join s

theorem splitNlAux_no_newline : ∀ s : Chars,
    ∀ l ∈ (splitNlAux s).1 :: (splitNlAux s).2, '\n' ∉ l
  | [] => by intro l hl; simp [splitNlAux] at hl; simp [hl]
  | c :: s => by
    intro l hl
    have ih := splitNlAux_no_newline s
    by_cases hc : c = '\n'
    · subst hc
      simp only [splitNlAux, if_pos rfl] at hl
      rcases List.mem_cons.mp hl with rfl | hl2
      · simp
      · exact ih l hl2
    · simp only [splitNlAux, if_neg hc] at hl
      rcases List.mem_cons.mp hl with rfl | hl2
      · intro hmem
        rcases List.mem_cons.mp hmem with heq | hmem2
        · exact hc heq.symm
        · exact ih _ (by simp) hmem2
      · exact ih l (by simp [hl2])

theorem splitNl_no_newline (s : Chars) : ∀ l ∈ splitNl s, '\n' ∉ l :=
  splitNlAux_no_newline s

theorem splitNl_backslashPad : ∀ (k : Nat) (s : Chars),
    splitNl (backslashPad k ++ s) = List.replicate k ['\\'] ++ splitNl s
  | 0, s => by simp [backslashPad]
  | k + 1, s => by
    have ih := splitNl_backslashPad k s
    have hshape : backslashPad (k + 1) ++ s = '\\' :: '\n' :: (backslashPad k ++ s) := by
      simp [backslashPad, List.replicate_succ]
    have h1 : splitNl ('\\' :: '\n' :: (backslashPad k ++ s)) =
        ['\\'] :: splitNl (backslashPad k ++ s) := rfl
    rw [hshape, h1, ih, List.replicate_succ]
    rfl

theorem splitNl_head_not_backslash (s : Chars) (h : ∀ c, s.head? = some c → c ≠ '\\') :
    ∃ l0 rest, splitNl s = l0 :: rest ∧ l0 ≠ ['\\'] ∧ l0 ≠ ['\n'] := by
  have hnl := splitNl_no_newline s
  cases s with
  | nil => exact ⟨[], [], rfl, by simp, by simp⟩
  | cons c s2 =>
    by_cases hc : c = '\n'
    · subst hc
      refine ⟨[], (splitNlAux s2).1 :: (splitNlAux s2).2, ?_, by simp, by simp⟩
      simp [splitNl, splitNlAux]
    · refine ⟨c :: (splitNlAux s2).1, (splitNlAux s2).2, ?_, ?_, ?_⟩
      · simp [splitNl, splitNlAux, hc]
      · intro hcon
        have hcne : c ≠ '\\' := h c rfl
        have : c = '\\' := (List.cons.injEq _ _ _ _).mp hcon |>.1
        exact hcne this
      · intro hcon
        have : c = '\n' := (List.cons.injEq _ _ _ _).mp hcon |>.1
        exact hc this

theorem dropWhile_replicate_backslash (k : Nat) (l : List Chars) :
    List.dropWhile (fun y => y = ['\\']) (List.replicate k ['\\'] ++ l) =
      List.dropWhile (fun y => y = ['\\']) l := by
  induction k with
  | zero => simp
  | succ n ih =>
    rw [List.replicate_succ, List.cons_append, List.dropWhile_cons]
    simp only [decide_True, if_true]
    exact ih

theorem strOf_of_loop (B : List Tok) (r : Nat) (out : Chars) (stF : Nat × Nat)
    (hne : B ≠ []) (hr : 1 ≤ r)
    (hrc : rowColOk (r, 0) B = true)
    (hbs : noBackslashText B = true)
    (hloop : untokLoop (r, 0) B = some (out, stF)) :
    strOfTokens B = some out := by
  cases B with
  | nil => exact absurd rfl hne
  | cons t ts =>
    have hrc2 := hrc
    simp only [rowColOk, Bool.and_eq_true, decide_eq_true_eq] at hrc2
    obtain ⟨⟨⟨⟨hrow, hcol⟩, hend⟩, henc⟩, hrest⟩ := hrc2
    have hshift := untokLoop_shift t ts r hr hrow hend henc
    rw [hloop] at hshift
    have huntok : untokenize (t :: ts) = some (backslashPad (r - 1) ++ out) := by
      rw [untokenize, hshift]
      rfl
    have hhead := untokLoop_head_char (t :: ts) (r, 0) out stF hrc hbs hloop
    obtain ⟨l0, rest, hsplit, hl0bs, hl0nl⟩ := splitNl_head_not_backslash out hhead
    simp only [strOfTokens, huntok]
    rw [splitNl_backslashPad, hsplit, dropWhile_replicate_backslash]
    simp only [List.dropWhile_cons, hl0bs, decide_False, Bool.false_eq_true, if_false,
      if_neg hl0nl]
    rw [← hsplit, joinNl_splitNl]

theorem iterGo_flatten : ∀ (pairs : List (List Tok × Int)) (acc : List Tok),
    (iterGo pairs acc).flatten = acc ++ (pairs.map Prod.fst).flatten
  | [], acc => by
    by_cases h : acc.isEmpty
    · have hnil : acc = [] := by simpa using h
      simp [iterGo, h, hnil]
    · simp [iterGo, h]
  | (line, lvl) :: pairs, acc => by
    by_cases hlvl : lvl = 0
    · by_cases hdec : (acc.isEmpty || is_decorator acc) = true
      · simp [iterGo, hlvl, hdec, iterGo_flatten pairs (acc ++ line), List.append_assoc]
      · by_cases hcont : _is_continued_block line = true
        · simp [iterGo, hlvl, hdec, hcont, iterGo_flatten pairs (acc ++ line),
            List.append_assoc]
        · simp [iterGo, hlvl, hdec, hcont, iterGo_flatten pairs line, List.append_assoc]
    · simp [iterGo, hlvl, iterGo_flatten pairs (acc ++ line), List.append_assoc]

theorem iterGo_groups_prop : ∀ (pairs : List (List Tok × Int)) (acc : List Tok),
    (∀ p ∈ pairs, p.1 ≠ [] ∧ ∀ x, p.1.getLast? = some x → is_complete_line x = true) →
    (acc = [] ∨ (acc ≠ [] ∧ ∀ x, acc.getLast? = some x → is_complete_line x = true)) →
    ∀ G ∈ iterGo pairs acc, G ≠ [] ∧ ∀ x, G.getLast? = some x → is_complete_line x = true
  | [], acc, _, hacc, G, hG => by
    by_cases h : acc.isEmpty
    · simp [iterGo, h] at hG
    · simp only [iterGo, h, if_false, Bool.false_eq_true] at hG
      rw [List.mem_singleton.mp hG]
      rcases hacc with rfl | hacc2
      · simp at h
      · exact hacc2
  | (line, lvl) :: pairs, acc, hp, hacc, G, hG => by
    have hline := hp (line, lvl) (by simp)
    have hrec : ∀ q ∈ pairs,
        q.1 ≠ [] ∧ ∀ x, q.1.getLast? = some x → is_complete_line x = true :=
      fun q hq => hp q (by simp [hq])
    have hext : ((acc ++ line) = [] ∨ ((acc ++ line) ≠ [] ∧
        ∀ x, (acc ++ line).getLast? = some x → is_complete_line x = true)) := by
      right
      constructor
      · simp [List.append_eq_nil, hline.1]
      · intro x hx
        rw [List.getLast?_append_of_ne_nil acc hline.1] at hx
        exact hline.2 x hx
    by_cases hlvl : lvl = 0
    · by_cases hdec : (acc.isEmpty || is_decorator acc) = true
      · simp only [iterGo, hlvl, if_pos rfl, hdec, if_true] at hG
        exact iterGo_groups_prop pairs (acc ++ line) hrec hext G hG
      · by_cases hcont : _is_continued_block line = true
        · simp only [iterGo, hlvl, if_pos rfl, hdec, hcont, if_true, Bool.false_eq_true,
            if_false] at hG
          exact iterGo_groups_prop pairs (acc ++ line) hrec hext G hG
        · simp only [iterGo, hlvl, if_pos rfl, hdec, hcont, Bool.false_eq_true,
            if_false] at hG
          rcases List.mem_cons.mp hG with rfl | hG2
          · rcases hacc with rfl | hacc2
            · simp at hdec
            · exact hacc2
          · exact iterGo_groups_prop pairs line hrec (Or.inr ⟨hline.1, hline.2⟩) G hG2
    · simp only [iterGo, hlvl, Bool.false_eq_true, if_false] at hG
      exact iterGo_groups_prop pairs (acc ++ line) hrec hext G hG

theorem foldl_advance_newline (G : List Tok) (st : Nat × Nat) (hne : G ≠ [])
    (hlast : ∀ x, G.getLast? = some x → is_complete_line x = true) :
    (G.foldl advanceTok st).2 = 0 ∧ 1 ≤ (G.foldl advanceTok st).1 := by
  rcases List.eq_nil_or_concat G with rfl | ⟨G2, t, rfl⟩
  · exact absurd rfl hne
  · rw [List.concat_eq_append] at hlast ⊢
    have ht : is_complete_line t = true := hlast t (by rw [List.getLast?_concat])
    have hadv : ∀ st2, advanceTok st2 t = (t.endPos.1 + 1, 0) := by
      intro st2
      rw [advanceTok, if_pos (Or.inl (by simpa [is_complete_line] using ht))]
    rw [List.foldl_append]
    simp only [List.foldl_cons, List.foldl_nil, hadv]
    exact ⟨trivial, by omega⟩

theorem accumulateInt_length : ∀ (s : Int) (l : List Int),
    (accumulateInt s l).length = l.length
  | _, [] => rfl
  | s, x :: l => by simp [accumulateInt, accumulateInt_length (s + x) l]

theorem lines_props (body : List Tok)
    (hhead : ∀ x, body.head? = some x → is_complete_line x = false) :
    ∀ l ∈ _generate_logical_lines body,
      l ≠ [] ∧ ∀ x, l.getLast? = some x → is_complete_line x = true := by
  cases body with
  | nil =>
    intro l hl
    rw [generate_lines_eq_pairUp] at hl
    simp [runsBy, pairUp] at hl
  | cons t ts =>
    intro l hl
    rw [generate_lines_eq_pairUp] at hl
    have hrs := runsBy_runs is_complete_line t ts
    rw [hhead t rfl] at hrs
    exact pairUp_line_end _ _ hrs l hl

theorem groups_mapM_strOf : ∀ (gs : List (List Tok)) (st : Nat × Nat),
    st.2 = 0 → 1 ≤ st.1 →
    rowColOk st gs.flatten = true →
    noBackslashText gs.flatten = true →
    (∀ G ∈ gs, G ≠ [] ∧ ∀ x, G.getLast? = some x → is_complete_line x = true) →
    ∃ outs, gs.mapM strOfTokens = some outs ∧
      untokLoop st gs.flatten = some (outs.flatten, gs.flatten.foldl advanceTok st)
  | [], st, _, _, _, _, _ => ⟨[], rfl, rfl⟩
  | G :: gs, st, hcol, hrow, hrc, hbs, hprops => by
    have hGprop := hprops G (by simp)
    rw [List.flatten_cons, rowColOk_append] at hrc
    rw [List.flatten_cons] at hbs
    simp only [Bool.and_eq_true] at hrc
    have hbsG : noBackslashText G = true := by
      simp only [noBackslashText, List.all_append, Bool.and_eq_true] at hbs
      exact hbs.1
    have hbsRest : noBackslashText gs.flatten = true := by
      simp only [noBackslashText, List.all_append, Bool.and_eq_true] at hbs
      exact hbs.2
    obtain ⟨outG, houtG⟩ := untokLoop_of_rowColOk G st hrc.1
    have hst : st = (st.1, 0) := by
      rw [← hcol]
    have hstrG : strOfTokens G = some outG := by
      refine strOf_of_loop G st.1 outG (G.foldl advanceTok st) hGprop.1 hrow ?_ hbsG ?_
      · rw [← hst]
        exact hrc.1
      · rw [← hst]
        exact houtG
    have hnext := foldl_advance_newline G st hGprop.1 hGprop.2
    obtain ⟨outs, houts, hloop⟩ := groups_mapM_strOf gs (G.foldl advanceTok st)
      hnext.1 hnext.2 hrc.2 hbsRest (fun x hx => hprops x (by simp [hx]))
    refine ⟨outG :: outs, ?_, ?_⟩
    · rw [List.mapM_cons, hstrG, houts]
      rfl
    · simp only [List.flatten_cons]
      rw [untokLoop_append G gs.flatten st (rowColOk_no_endmarker G st hrc.1), houtG]
      simp only [Option.some_bind, hloop, Option.map_some']
      rw [List.foldl_append]

/-! ### Claim C1 -/

/-- C1 as stated is false: the source `a = 5` followed by one trailing
blank line tokenizes with the blank line's NL marker after the last
logical newline; that token is assigned to no logical line, so the single
group reconstructs only `a = 5` and the concatenation misses the final
blank line, although the source is syntactically valid and ends in a
newline (the geometric untokenize contract holds for the whole stream). -/
theorem round_trip_counterexample :
    untokenize (lineAssignA ++ tailBlankLine) = some (("a = 5\n\n").data) ∧
    (("a = 5\n\n").data).getLast? = some '\n' ∧
    rowColOk (1, 0) lineAssignA = true ∧
    noBackslashText (lineAssignA ++ tailBlankLine) = true ∧
    ((lineAssignA ++ tailBlankLine).head?.map is_complete_line = some false) ∧
    (∀ x ∈ tailBlankLine, is_complete_line x = false) ∧
    (lineAssignA.getLast?.map is_complete_line = some true) ∧
    groupsJoined (lineAssignA ++ tailBlankLine) = some (("a = 5\n").data) ∧
    groupsJoined (lineAssignA ++ tailBlankLine) ≠ some (("a = 5\n\n").data) := by
  decide

/-- C1 amended: the round trip holds for every token stream that splits as
a statement body (ending in its last logical newline) followed by a tail
of zero-width markers only - i.e. the source has no trailing blank or
comment lines after its last statement - under the geometric contract the
host tokenizer guarantees for sources free of tab stops and backslash
continuations: concatenating the reconstructed texts of all groups equals
the untokenization of the stream, which is the source text. -/
theorem round_trip_amended (body tl : List Tok) (src : Chars)
    (hbody : body ≠ [])
    (hhead : ∀ x, body.head? = some x → is_complete_line x = false)
    (hlast : ∀ x, body.getLast? = some x → is_complete_line x = true)
    (htl : ∀ x ∈ tl, is_complete_line x = false)
    (hrc : rowColOk (1, 0) body = true)
    (hbs : noBackslashText body = true)
    (htz : tailZero (body.foldl advanceTok (1, 0)) tl = true)
    (hsrc : untokenize (body ++ tl) = some src) :
    groupsJoined (body ++ tl) = some src := by
  have hlines : _generate_logical_lines (body ++ tl) = _generate_logical_lines body := by
    cases tl with
    | nil => rw [List.append_nil]
    | cons t0 tl2 => exact lines_append_tail body (t0 :: tl2) (by simp) htl hhead hlast
  have hgroups : iterate_groups_from_source (body ++ tl) =
      iterate_groups_from_source body := by
    rw [iterate_groups_from_source, iterate_groups_from_source, hlines]
  have hlflat : (_generate_logical_lines body).flatten = body :=
    lines_flatten_body body hbody hhead hlast
  have hgflat : (iterate_groups_from_source body).flatten = body := by
    rw [iterate_groups_from_source, iterGo_flatten]
    rw [List.map_fst_zip _ _ (by rw [accumulateInt_length, List.length_map])]
    simpa using hlflat
  have hgprops : ∀ G ∈ iterate_groups_from_source body,
      G ≠ [] ∧ ∀ x, G.getLast? = some x → is_complete_line x = true := by
    rw [iterate_groups_from_source]
    refine iterGo_groups_prop _ [] ?_ (Or.inl rfl)
    intro p hp
    exact lines_props body hhead p.1 (List.of_mem_zip hp).1
  obtain ⟨outs, houts, hloop⟩ := groups_mapM_strOf (iterate_groups_from_source body)
    (1, 0) rfl (by omega) (by rw [hgflat]; exact hrc) (by rw [hgflat]; exact hbs) hgprops
  rw [hgflat] at hloop
  -- untokenize of the full stream equals the body output
  have hloopFull : untokLoop (1, 0) (body ++ tl) =
      some (outs.flatten, body.foldl advanceTok (1, 0)) := by
    rw [untokLoop_append body tl (1, 0) (rowColOk_no_endmarker body (1, 0) hrc), hloop]
    simp only [Option.some_bind]
    rw [untokLoop_tailZero tl (body.foldl advanceTok (1, 0)) htz]
    simp
  have hsrc2 : outs.flatten = src := by
    rw [untokenize, hloopFull] at hsrc
    simpa using hsrc
  rw [groupsJoined, hgroups, houts, Option.map_some', hsrc2]

/-- Witness for the amended C1 round trip: the two-statement source
`a = 5` / `b = 6` with only the end marker after its last newline
reconstructs exactly. -/
theorem round_trip_amended_witness :
    groupsJoined ((lineAssignA ++ lineAssignB) ++ tailEnd3) =
      some (("a = 5\nb = 6\n").data) :=
  round_trip_amended (lineAssignA ++ lineAssignB) tailEnd3 (("a = 5\nb = 6\n").data)
    (by decide)
    (fun x hx => by
      rw [show (lineAssignA ++ lineAssignB).head? =
          some (mkTok .NAME "a" 1 0 1 1 "a = 5\n") from rfl, Option.some_inj] at hx
      rw [← hx]
      rfl)
    (fun x hx => by
      rw [show (lineAssignA ++ lineAssignB).getLast? =
          some (mkTok .NEWLINE "\n" 2 5 2 6 "b = 6\n") from rfl, Option.some_inj] at hx
      rw [← hx]
      rfl)
    (by decide) (by decide) (by decide) (by decide) (by decide)

/-- Witness for the amended C9 theorem at a concrete run of show calls. -/
theorem figure_hooks_amended_witness :
    (get_figures (applyFigEvents OutputCage.init
        ([FigEvent.showOne 3] ++ FigEvent.showAll [1] :: [FigEvent.showOne 2]))).1 =
      queuedByEvent (applyFigEvents OutputCage.init [FigEvent.showOne 3])
        (FigEvent.showAll [1]) ++ showOnePngs [FigEvent.showOne 2] :=
  figure_hooks_amended.2.2.2 OutputCage.init [FigEvent.showOne 3] [1]
    [FigEvent.showOne 2] (by decide)

end Literate
